import Mathlib

/-!
Verification of the folder-organization feature of the Archon knowledge base.

The development shallowly embeds the relevant program parts:
  - the folder service helpers of the web client
    (`validateFolderName`, `wouldCreateCircularReference`, `deleteFolder`),
  - the drag-and-drop hook (`validateDrop`, `handleDrop`),
  - the optimistic cache updates of the folder mutation hooks
    (create / update / delete `onMutate` and `onError`),
  - the SQL helper routines of migration `012_add_knowledge_folders`
    (`archon_is_folder_descendant`, `archon_count_folder_sources`).

JavaScript values are modelled as follows: strings are `String`; a field of
type `string | null` is `Option String`; an optional field of type
`string | null` (which may additionally be `undefined`) is
`Option (Option String)` with `none` for `undefined`, `some none` for `null`
and `some (some s)` for a string.  Machine integers of the program are
JavaScript numbers used only as counts, embedded as `Int` where the program
can drive them below zero and `Nat` elsewhere.
-/

/-- Truthiness of a JavaScript string: everything except the empty string. -/
def strTruthy (s : String) : Bool :=
  s ≠ ""

/-- Truthiness of a JavaScript `string | null | undefined` value. -/
def jsTruthy : Option (Option String) → Bool
  | some (some s) => strTruthy s
  | _ => false

/-- The JavaScript expression `x || null` for `x : string | null | undefined`:
falsy values (`undefined`, `null`, the empty string) collapse to `null`. -/
def jsOrNull : Option (Option String) → Option String
  | some (some s) => if s = "" then none else some s
  | _ => none

/-- Strict equality `x === y` between a `string | null | undefined` value and
a `string | null` value (`undefined` is equal to neither `null` nor a string). -/
def jsStrictEq (a : Option (Option String)) (b : Option String) : Bool :=
  a = some b

/-- JavaScript `Boolean.prototype.toString`. -/
def jsBoolToString (b : Bool) : String :=
  if b then "true" else "false"

/-! ## Folder name validation (folderService.validateFolderName) -/

/-- Model of the whitespace class used by JavaScript `String.prototype.trim`. -/
def isJsWhitespace (c : Char) : Bool :=
  c.isWhitespace

/-- Model of JavaScript `String.prototype.trim`: strip leading and trailing
whitespace. -/
def jsTrim (s : String) : String :=
  ⟨((s.toList.dropWhile isJsWhitespace).reverse.dropWhile isJsWhitespace).reverse⟩

/-- The reserved filesystem characters of the regular expression
`/[<>:"/\\|?*]/` in `validateFolderName`. -/
def reservedChars : List Char :=
  ['<', '>', ':', '"', '/', '\\', '|', '?', '*']

/-- Result record of `folderService.validateFolderName`. -/
structure ValidationResult where
  valid : Bool
  error : Option String
  deriving DecidableEq, Repr

/-- Embedding of `folderService.validateFolderName`. -/
def validateFolderName (name : String) : ValidationResult :=
  if name = "" ∨ (jsTrim name).length = 0 then
    { valid := false, error := some "Folder name is required" }
  else if name.length > 255 then
    { valid := false, error := some "Folder name must be 255 characters or less" }
  else if name.toList.any (fun c => reservedChars.contains c) then
    { valid := false, error := some "Folder name contains invalid characters" }
  else
    { valid := true, error := none }

/-! ## Folder deletion request (folderService.deleteFolder) -/

/-- A REST request assembled by the folder service: HTTP method and path
(query string included). -/
structure ApiRequest where
  method : String
  path : String
  deriving DecidableEq, Repr

/-- Model of `URLSearchParams.toString` for the parameter lists built by the
folder service (no characters needing percent-encoding occur there). -/
def urlParams (ps : List (String × String)) : String :=
  String.intercalate "&" (ps.map (fun p => p.1 ++ "=" ++ p.2))

/-- Embedding of `folderService.deleteFolder`: the DELETE request it issues.
The second argument defaults to `true` exactly as in the source. -/
def folderService.deleteFolder (folderId : String)
    (moveContentsToParent : Bool := true) : ApiRequest :=
  let params := urlParams
    [("move_contents_to_parent", jsBoolToString moveContentsToParent)]
  { method := "DELETE", path := "/api/folders/" ++ folderId ++ "?" ++ params }

/-- Variables of the `useDeleteFolder` mutation; `none` models an omitted
`moveContentsToParent`. -/
structure DeleteFolderVariables where
  folderId : String
  moveContentsToParent : Option Bool
  deriving DecidableEq, Repr

/-- Embedding of the `mutationFn` of `useDeleteFolder`: the destructuring
default `moveContentsToParent = true` fires when the field is `undefined`. -/
def useDeleteFolder.mutationFn (v : DeleteFolderVariables) : ApiRequest :=
  folderService.deleteFolder v.folderId (v.moveContentsToParent.getD true)

/-! ## Drag and drop (useDragAndDrop) -/

/-- Kind of a dragged item. -/
inductive DragItemType where
  | folder
  | source
  deriving DecidableEq, Repr

/-- Data of a dragged item (`DragItemData`). -/
structure DragItemData where
  type : DragItemType
  id : String
  name : Option String
  folder_id : Option (Option String)
  deriving DecidableEq, Repr

/-- Kind of a drop zone. -/
inductive DropZoneType where
  | folder
  | root
  deriving DecidableEq, Repr

/-- Data of a drop zone (`DropZoneData`). -/
structure DropZoneData where
  type : DropZoneType
  folder_id : Option (Option String)
  deriving DecidableEq, Repr

/-- The drag state held by `useDragAndDrop`. -/
structure DragState where
  isDragging : Bool
  draggedItem : Option DragItemData
  draggedItems : List DragItemData
  dropTarget : Option DropZoneData
  isValidDrop : Bool
  deriving DecidableEq, Repr

/-- A call to one of the move callbacks of `useDragAndDrop`. -/
inductive MoveCall where
  | moveFolder (folderId : String) (newParentId : Option String)
  | batchMove (sourceIds : List String) (folderId : Option String)
  | moveSource (sourceId : String) (folderId : Option String)
  deriving DecidableEq, Repr

/-- The reset state written by `handleDragEnd`. -/
def handleDragEnd : DragState :=
  { isDragging := false, draggedItem := none, draggedItems := [],
    dropTarget := none, isValidDrop := false }

/-- Embedding of `handleDrop`: returns the move callback invoked (if any)
together with the drag state after the handler. -/
def handleDrop (st : DragState) (dropZone : DropZoneData) :
    Option MoveCall × DragState :=
  if !st.isDragging || !st.isValidDrop || st.draggedItem.isNone then
    (none, st)
  else
    match st.draggedItem with
    | none => (none, st)
    | some item =>
      let targetFolderId : Option String :=
        if dropZone.type = DropZoneType.root then none
        else jsOrNull dropZone.folder_id
      let call : MoveCall :=
        if item.type = DragItemType.folder then
          MoveCall.moveFolder item.id targetFolderId
        else if st.draggedItems.length > 1 then
          MoveCall.batchMove (st.draggedItems.map (fun i => i.id)) targetFolderId
        else
          MoveCall.moveSource item.id targetFolderId
      (some call, handleDragEnd)

/-! ## Helper lemmas about trimming -/

theorem dropWhile_forall_of_forall {p : Char → Bool} {l : List Char}
    (h : ∀ c ∈ l, p c) : ∀ c ∈ l.dropWhile p, p c := by
  intro c hc
  exact h c (List.dropWhile_sublist (p := p) (l := l) |>.subset hc)

theorem forall_of_dropWhile_forall {p : Char → Bool} {l : List Char}
    (h : ∀ c ∈ l.dropWhile p, p c) : ∀ c ∈ l, p c := by
  intro c hc
  rw [← List.takeWhile_append_dropWhile (p := p) (l := l)] at hc
  rcases List.mem_append.1 hc with h1 | h2
  · exact List.mem_takeWhile_imp h1
  · exact h c h2

theorem jsTrim_eq_empty_iff (s : String) :
    (jsTrim s).length = 0 ↔ ∀ c ∈ s.toList, isJsWhitespace c := by
  unfold jsTrim
  rw [String.length]
  simp only [List.length_reverse, List.length_eq_zero,
    List.dropWhile_eq_nil_iff, List.mem_reverse]
  constructor
  · intro h
    exact forall_of_dropWhile_forall h
  · intro h
    exact dropWhile_forall_of_forall h

/-- C6: `validateFolderName` returns `valid = false` exactly for names that
are empty or whitespace-only, longer than 255 characters, or containing a
reserved filesystem character; every other name is accepted. -/
theorem validateFolderName_rejects_iff (name : String) :
    (validateFolderName name).valid = false ↔
      ((∀ c ∈ name.toList, isJsWhitespace c) ∨ 255 < name.length ∨
        ∃ c ∈ name.toList, c ∈ reservedChars) := by
  unfold validateFolderName
  split_ifs with h1 h2 h3
  · refine iff_of_true rfl (Or.inl ?_)
    rcases h1 with h1 | h1
    · intro c hc
      rw [h1] at hc
      simp [String.toList] at hc
    · exact (jsTrim_eq_empty_iff name).1 h1
  · exact iff_of_true rfl (Or.inr (Or.inl h2))
  · refine iff_of_true rfl (Or.inr (Or.inr ?_))
    rcases List.any_eq_true.1 h3 with ⟨c, hc, hres⟩
    exact ⟨c, hc, by simpa using hres⟩
  · have hws : ¬ ∀ c ∈ name.toList, isJsWhitespace c := by
      intro hall
      exact h1 (Or.inr ((jsTrim_eq_empty_iff name).2 hall))
    refine iff_of_false (by simp) ?_
    rintro (h | h | ⟨c, hc, hres⟩)
    · exact hws h
    · exact h2 h
    · exact h3 (List.any_eq_true.2 ⟨c, hc, by simpa using hres⟩)

/-- C10: when `deleteFolder` is invoked without the `moveContentsToParent`
argument, both the hook mutation function and the service send a DELETE
request with query parameter `move_contents_to_parent=true`. -/
theorem deleteFolder_defaults_to_reparent (folderId : String) :
    useDeleteFolder.mutationFn { folderId := folderId, moveContentsToParent := none } =
      { method := "DELETE",
        path := "/api/folders/" ++ folderId ++ "?move_contents_to_parent=true" } ∧
    folderService.deleteFolder folderId =
      { method := "DELETE",
        path := "/api/folders/" ++ folderId ++ "?move_contents_to_parent=true" } := by
  constructor
  · show ApiRequest.mk "DELETE" ("/api/folders/" ++ folderId ++ "?" ++ "move_contents_to_parent=true") = _
    rw [String.append_assoc]
    rfl
  · show ApiRequest.mk "DELETE" ("/api/folders/" ++ folderId ++ "?" ++ "move_contents_to_parent=true") = _
    rw [String.append_assoc]
    rfl

/-- C9: when the drop guard fails (not dragging, or the tracked drop is not
valid, or no dragged item is present), `handleDrop` invokes no move callback
and leaves the drag state untouched. -/
theorem handleDrop_guard (st : DragState) (dropZone : DropZoneData)
    (h : st.isDragging = false ∨ st.isValidDrop = false ∨ st.draggedItem = none) :
    handleDrop st dropZone = (none, st) := by
  unfold handleDrop
  rcases h with h | h | h
  · simp [h]
  · simp [h]
  · simp [h]

/-- Witness for C9 at a concrete non-dragging state. -/
theorem handleDrop_guard_witness :
    handleDrop handleDragEnd { type := DropZoneType.root, folder_id := none } =
      (none, handleDragEnd) :=
  handleDrop_guard handleDragEnd { type := DropZoneType.root, folder_id := none }
    (Or.inl rfl)

/-! ## SQL folder table model (migration 012_add_knowledge_folders) -/

/-- A row of `archon_knowledge_folders` (the columns the helper routines
read). -/
structure FolderRow where
  id : String
  parent_id : Option String
  deriving DecidableEq, Repr

/-- A state of the `archon_knowledge_folders` table. -/
abbrev FolderTable := List FolderRow

/-- The query `SELECT parent_id FROM archon_knowledge_folders WHERE id = i`:
`none` both when the row is missing and when its `parent_id` is NULL (the two
cases the SQL walk treats identically). -/
def stepParent (db : FolderTable) (i : String) : Option String :=
  (db.find? (fun f => f.id = i)).bind (fun f => f.parent_id)

/-- The WHILE loop of `archon_is_folder_descendant`: walk up the parent chain
looking for `ancestor`, with `fuel = max_depth - current_depth` steps left. -/
def descendWalk (db : FolderTable) (ancestor : String) :
    Nat → Option String → Bool
  | _, none => false
  | 0, some _ => false
  | fuel + 1, some c =>
    if c = ancestor then true
    else descendWalk db ancestor fuel (stepParent db c)

/-- Embedding of the SQL function `archon_is_folder_descendant`. -/
def archon_is_folder_descendant (db : FolderTable)
    (target_folder_id potential_ancestor_id : Option String) : Bool :=
  match target_folder_id, potential_ancestor_id with
  | none, _ => false
  | some _, none => false
  | some t, some a =>
    if t = a then true
    else descendWalk db a 100 (stepParent db t)

/-- The first `fuel` entries of the parent chain starting at `cur` (the chain
`archon_is_folder_descendant` inspects, reading the table as the walk does). -/
def parentChain (db : FolderTable) : Nat → Option String → List String
  | _, none => []
  | 0, some _ => []
  | fuel + 1, some c => c :: parentChain db fuel (stepParent db c)

/-- The `n`-fold iterate of the parent step (`none` once the chain ends). -/
def iterParent (db : FolderTable) : Nat → String → Option String
  | 0, i => some i
  | n + 1, i =>
    match stepParent db i with
    | none => none
    | some p => iterParent db n p

/-- A table is acyclic when no folder reaches itself by a positive number of
parent steps: no folder lies on its own ancestor chain. -/
def Acyclic (db : FolderTable) : Prop :=
  ∀ i k, 0 < k → iterParent db k i ≠ some i

/-- The UPDATE setting `parent_id` of folder `fid` to `newParent`. -/
def setParent (db : FolderTable) (fid : String) (newParent : Option String) :
    FolderTable :=
  db.map (fun f => if f.id = fid then { f with parent_id := newParent } else f)

theorem descendWalk_iff_mem (db : FolderTable) (a : String) :
    ∀ (fuel : Nat) (cur : Option String),
      descendWalk db a fuel cur = true ↔ a ∈ parentChain db fuel cur := by
  intro fuel
  induction fuel with
  | zero =>
    intro cur
    cases cur <;> simp [descendWalk, parentChain]
  | succ n ih =>
    intro cur
    cases cur with
    | none => simp [descendWalk, parentChain]
    | some c =>
      by_cases hc : c = a
      · simp [descendWalk, parentChain, hc]
      · have hco : ¬ a = c := fun h => hc h.symm
        simp [descendWalk, parentChain, hc, hco, ih]

theorem iterParent_add (db : FolderTable) (a b : Nat) :
    ∀ i, iterParent db (a + b) i =
      match iterParent db a i with
      | none => none
      | some j => iterParent db b j := by
  induction a with
  | zero =>
    intro i
    simp [iterParent]
  | succ n ih =>
    intro i
    have harith : n + 1 + b = (n + b) + 1 := by omega
    rw [harith]
    cases hs : stepParent db i with
    | none => simp [iterParent, hs]
    | some p => simp [iterParent, hs, ih p]

theorem mem_parentChain_iff (db : FolderTable) (a : String) :
    ∀ (fuel : Nat) (c : String),
      a ∈ parentChain db fuel (some c) ↔
        ∃ k, k < fuel ∧ iterParent db k c = some a := by
  intro fuel
  induction fuel with
  | zero =>
    intro c
    simp [parentChain]
  | succ n ih =>
    intro c
    by_cases hc : a = c
    · subst hc
      constructor
      · intro _
        exact ⟨0, Nat.succ_pos n, rfl⟩
      · intro _
        simp [parentChain]
    · simp only [parentChain, List.mem_cons]
      constructor
      · rintro (h | h)
        · exact absurd h hc
        · cases hs : stepParent db c with
          | none =>
            rw [hs] at h
            simp [parentChain] at h
          | some p =>
            rw [hs] at h
            rcases (ih p).1 h with ⟨k, hk, hiter⟩
            refine ⟨k + 1, by omega, ?_⟩
            simp [iterParent, hs, hiter]
      · rintro ⟨k, hk, hiter⟩
        cases k with
        | zero =>
          simp [iterParent] at hiter
          exact absurd hiter.symm hc
        | succ m =>
          cases hs : stepParent db c with
          | none =>
            rw [show m + 1 = 1 + m by omega, iterParent_add] at hiter
            simp [iterParent, hs] at hiter
          | some p =>
            rw [show m + 1 = 1 + m by omega, iterParent_add] at hiter
            simp only [iterParent, hs] at hiter
            right
            exact (ih p).2 ⟨m, by omega, hiter⟩

theorem stepParent_setParent (db : FolderTable) (F : String) (T : Option String)
    (hF : (db.find? (fun f => f.id = F)).isSome) (i : String) :
    stepParent (setParent db F T) i = if i = F then T else stepParent db i := by
  have hid : ∀ f : FolderRow,
      (if f.id = F then { f with parent_id := T } else f).id = f.id := by
    intro f
    split <;> rfl
  have hfind2 : (setParent db F T).find? (fun f => f.id = i) =
      (db.find? (fun f => f.id = i)).map
        (fun f => if f.id = F then { f with parent_id := T } else f) := by
    unfold setParent
    have hpred : ((fun f : FolderRow => decide (f.id = i)) ∘
        fun f => if f.id = F then { f with parent_id := T } else f) =
        fun f : FolderRow => decide (f.id = i) := by
      funext f
      simp [Function.comp, hid f]
    rw [List.find?_map, hpred]
  unfold stepParent
  rw [hfind2]
  cases hfind : db.find? (fun f : FolderRow => decide (f.id = i)) with
  | none =>
    have hiF : i ≠ F := by
      intro h
      subst h
      rw [hfind] at hF
      simp at hF
    simp [hiF]
  | some r =>
    have hr : r.id = i := by
      have := List.find?_some hfind
      simpa using this
    by_cases hiF : i = F
    · have hrF : r.id = F := by rw [hr]; exact hiF
      simp [hiF, hrF]
    · have hrF : ¬ r.id = F := by rw [hr]; exact hiF
      simp [hiF, hrF]

theorem iterParent_setParent_of_avoids (db : FolderTable) (F : String)
    (T : Option String) (hF : (db.find? (fun f => f.id = F)).isSome) :
    ∀ (m : Nat) (j : String), (∀ l, l < m → iterParent db l j ≠ some F) →
      iterParent (setParent db F T) m j = iterParent db m j := by
  intro m
  induction m with
  | zero =>
    intro j _
    rfl
  | succ n ih =>
    intro j havoid
    have hjF : j ≠ F := by
      intro h
      exact havoid 0 (Nat.succ_pos n) (by simp [iterParent, h])
    have hstep : stepParent (setParent db F T) j = stepParent db j := by
      rw [stepParent_setParent db F T hF j, if_neg hjF]
    cases hs : stepParent db j with
    | none => simp [iterParent, hstep, hs]
    | some p =>
      simp only [iterParent, hstep, hs]
      refine ih p ?_
      intro l hl hcon
      refine havoid (l + 1) (by omega) ?_
      simp [iterParent, hs, hcon]

theorem iterParent_setParent_of_avoids_upd (db : FolderTable) (F : String)
    (T : Option String) (hF : (db.find? (fun f => f.id = F)).isSome) :
    ∀ (m : Nat) (j : String),
      (∀ l, l < m → iterParent (setParent db F T) l j ≠ some F) →
      iterParent (setParent db F T) m j = iterParent db m j := by
  intro m
  induction m with
  | zero =>
    intro j _
    rfl
  | succ n ih =>
    intro j havoid
    have hjF : j ≠ F := by
      intro h
      exact havoid 0 (Nat.succ_pos n) (by simp [iterParent, h])
    have hstep : stepParent (setParent db F T) j = stepParent db j := by
      rw [stepParent_setParent db F T hF j, if_neg hjF]
    cases hs : stepParent db j with
    | none => simp [iterParent, hstep, hs]
    | some p =>
      simp only [iterParent, hstep, hs]
      refine ih p ?_
      intro l hl hcon
      refine havoid (l + 1) (by omega) ?_
      simp [iterParent, hstep, hs, hcon]

theorem iterParent_cycle_pump (db : FolderTable) (i : String) (k : Nat)
    (hcyc : iterParent db k i = some i) :
    ∀ m, iterParent db (m * k) i = some i := by
  intro m
  induction m with
  | zero =>
    rw [Nat.zero_mul]
    rfl
  | succ n ih =>
    have : (n + 1) * k = n * k + k := by ring
    rw [this, iterParent_add, ih]
    exact hcyc

theorem no_cycle_of_terminates (db : FolderTable) (i : String) (n : Nat)
    (hn : iterParent db n i = none) :
    ∀ k, 0 < k → iterParent db k i ≠ some i := by
  intro k hk hcyc
  have hpump := iterParent_cycle_pump db i k hcyc n
  have hge : n * k = n + (n * k - n) := by
    have : n ≤ n * k := Nat.le_mul_of_pos_right n hk
    omega
  rw [hge, iterParent_add, hn] at hpump
  exact Option.noConfusion hpump

theorem acyclic_of_terminating (db : FolderTable)
    (h : ∀ f ∈ db, iterParent db db.length f.id = none) : Acyclic db := by
  intro i k hk hcyc
  cases hfind : db.find? (fun f => f.id = i) with
  | none =>
    cases k with
    | zero => omega
    | succ m =>
      have hstep : stepParent db i = none := by
        simp [stepParent, hfind]
      simp [iterParent, hstep] at hcyc
  | some r =>
    have hr : r.id = i := by
      have := List.find?_some hfind
      simpa using this
    have hmem : r ∈ db := List.mem_of_find?_eq_some hfind
    have hterm := h r hmem
    rw [hr] at hterm
    exact no_cycle_of_terminates db i db.length hterm k hk hcyc

theorem archon_is_folder_descendant_some_some (db : FolderTable)
    (t a : String) :
    archon_is_folder_descendant db (some t) (some a) =
      if t = a then true else descendWalk db a 100 (stepParent db t) := rfl

/-- C1 (amended): the ancestor walk `archon_is_folder_descendant` returns
TRUE exactly when the ancestor equals the target or appears among the first
100 entries of the target's parent chain; and on states whose parent chain
above the new parent ends within the 100-step cap, reparenting `F` under `T`
guarded by the walk keeps an acyclic table acyclic, so no folder comes to
lie on its own ancestor chain.  The cap condition is necessary: on deeper
reachable states the capped walk can miss a true descendant and the guarded
reparent creates a cycle (see `deepChain`). -/
theorem folder_no_self_ancestor (db : FolderTable) (F T : String)
    (hacyc : Acyclic db)
    (hF : (db.find? (fun f => f.id = F)).isSome)
    (hguard : archon_is_folder_descendant db (some T) (some F) = false)
    (hdepth : iterParent db 100 T = none) :
    (∀ (db2 : FolderTable) (t a : String),
        archon_is_folder_descendant db2 (some t) (some a) = true ↔
          (a = t ∨ a ∈ parentChain db2 100 (stepParent db2 t)))
    ∧ Acyclic (setParent db F (some T)) := by
  constructor
  · intro db2 t a
    rw [archon_is_folder_descendant_some_some]
    by_cases hta : t = a
    · simp [hta]
    · have hat : ¬ a = t := fun h => hta h.symm
      simp only [if_neg hta]
      rw [descendWalk_iff_mem]
      constructor
      · intro h
        exact Or.inr h
      · rintro (h | h)
        · exact absurd h hat
        · exact h
  · -- Unpack the guard: `T ≠ F` and the walk from T does not meet F.
    have hTF : T ≠ F := by
      intro h
      rw [archon_is_folder_descendant_some_some, if_pos h] at hguard
      exact Bool.noConfusion hguard
    have hwalk : descendWalk db F 100 (stepParent db T) = false := by
      rwa [archon_is_folder_descendant_some_some, if_neg hTF] at hguard
    have hnomem : F ∉ parentChain db 100 (stepParent db T) := by
      intro hmem
      rw [← descendWalk_iff_mem] at hmem
      rw [hwalk] at hmem
      exact Bool.noConfusion hmem
    -- Hence F is nowhere on the parent chain above T.
    have hT : ∀ l, iterParent db l T ≠ some F := by
      intro l hcon
      cases l with
      | zero =>
        exact hTF (Option.some.inj hcon)
      | succ m =>
        cases hs : stepParent db T with
        | none =>
          simp [iterParent, hs] at hcon
        | some c =>
          by_cases hm : m < 100
          · refine hnomem ?_
            rw [hs, mem_parentChain_iff]
            simp only [iterParent, hs] at hcon
            exact ⟨m, hm, hcon⟩
          · have : m + 1 = 100 + (m + 1 - 100) := by omega
            rw [this, iterParent_add, hdepth] at hcon
            exact Option.noConfusion hcon
    have hstepF : stepParent (setParent db F (some T)) F = some T := by
      rw [stepParent_setParent db F (some T) hF F, if_pos rfl]
    -- No cycle through F in the updated table.
    have hNoF : ∀ k, 0 < k →
        iterParent (setParent db F (some T)) k F ≠ some F := by
      intro k hk hcyc
      cases k with
      | zero => omega
      | succ m =>
        have heq : iterParent (setParent db F (some T)) (m + 1) F =
            iterParent (setParent db F (some T)) m T := by
          simp [iterParent, hstepF]
        rw [heq, iterParent_setParent_of_avoids db F (some T) hF m T
          (fun l _ => hT l)] at hcyc
        exact hT m hcyc
    -- No cycle anywhere in the updated table.
    intro j k hk hcyc
    by_cases hFin : ∃ m, m < k ∧ iterParent (setParent db F (some T)) m j = some F
    · rcases hFin with ⟨m, hm, hmF⟩
      have h1 : iterParent (setParent db F (some T)) (k + m) j =
          iterParent (setParent db F (some T)) m j := by
        rw [iterParent_add, hcyc]
      have h2 : iterParent (setParent db F (some T)) (m + k) j =
          iterParent (setParent db F (some T)) k F := by
        rw [iterParent_add, hmF]
      rw [Nat.add_comm k m, h2, hmF] at h1
      exact hNoF k hk h1
    · push_neg at hFin
      rw [iterParent_setParent_of_avoids_upd db F (some T) hF k j
        (fun l hl => hFin l hl)] at hcyc
      exact hacyc j k hk hcyc

/-- Witness for C1 at a concrete three-folder chain, moving folder c under
folder a. -/
theorem folder_no_self_ancestor_witness :
    Acyclic (setParent
      [⟨"a", none⟩, ⟨"b", some "a"⟩, ⟨"c", some "b"⟩] "c" (some "a")) :=
  (folder_no_self_ancestor
    [⟨"a", none⟩, ⟨"b", some "a"⟩, ⟨"c", some "b"⟩] "c" "a"
    (acyclic_of_terminating _ (by decide))
    (by decide) (by decide) (by decide)).2

/-! ## Client folder types (types/folders.ts) -/

/-- The client `Folder` record.  Counts are JavaScript numbers, embedded as
`Int`. -/
structure FolderInfo where
  id : String
  name : String
  description : Option String
  parent_id : Option (Option String)
  color : Option String
  icon : Option String
  position : Int
  metadata : List (String × String)
  created_at : String
  updated_at : String
  source_count : Int
  subfolder_count : Int
  total_sources : Int
  deriving DecidableEq, Repr

/-- The client `SourceInFolder` record (a source leaf of the folder tree). -/
structure SourceInfo where
  id : String
  source_id : String
  title : Option String
  source_url : Option String
  source_display_name : Option String
  folder_id : Option (Option String)
  created_at : String
  knowledge_type : Option String
  tags : List String
  deriving DecidableEq, Repr

/-- A node of the folder tree: the `node_type` discriminator of the source
becomes the constructor. -/
inductive TreeNode where
  | folder (data : FolderInfo) (children : List TreeNode)
  | source (data : SourceInfo)
  deriving Repr

/-- The `FolderTreeResponse` record. -/
structure FolderTreeResponse where
  tree : List TreeNode
  total_folders : Int
  total_sources : Option Int
  deriving Repr

/-- The `FolderListResponse` record. -/
structure FolderListResponse where
  folders : List FolderInfo
  total : Int
  deriving DecidableEq, Repr

/-- The `FolderCreate` request payload. -/
structure FolderCreate where
  name : String
  description : Option (Option String)
  color : Option (Option String)
  icon : Option (Option String)
  position : Int
  metadata : List (String × String)
  parent_id : Option (Option String)
  deriving DecidableEq, Repr

/-! ## Tree helpers of the folder service -/

/-- Embedding of the inner `findParentPath` of
`folderService.wouldCreateCircularReference`: depth-first search for the
folder with id `nodeId`, accumulating the ids of the folders above it. -/
def findParentPath (nodeId : String) :
    List TreeNode → List String → Option (List String)
  | [], _ => none
  | TreeNode.folder d cs :: rest, path =>
    if d.id = nodeId then some path
    else
      match findParentPath nodeId cs (path ++ [d.id]) with
      | some r => some r
      | none => findParentPath nodeId rest path
  | TreeNode.source _ :: rest, path => findParentPath nodeId rest path

/-- Embedding of `folderService.wouldCreateCircularReference`.  The
`targetParentId = some ""` case falls under the falsiness check
`if (!targetParentId) return false` of the source. -/
def wouldCreateCircularReference (folderId : String)
    (targetParentId : Option String) (folderTree : FolderTreeResponse) : Bool :=
  match targetParentId with
  | none => false
  | some tp =>
    if tp = "" then false
    else if folderId = tp then true
    else
      match findParentPath tp folderTree.tree [] with
      | some targetPath => targetPath.contains folderId
      | none => false

/-- The circular-reference branch of `validateDrop`: the guard
`targetFolderId && wouldCreateCircularReference(...)` with the truthiness of
the raw `dropZone.folder_id`. -/
def circularCheck (draggedItem : DragItemData) (dropZone : DropZoneData)
    (folderTree : Option FolderTreeResponse) : Bool :=
  match folderTree with
  | some tree =>
    if draggedItem.type = DragItemType.folder ∧
        dropZone.type = DropZoneType.folder then
      match dropZone.folder_id with
      | some (some t) =>
        if t ≠ "" then wouldCreateCircularReference draggedItem.id (some t) tree
        else false
      | _ => false
    else false
  | none => false

/-- The source-into-its-current-folder branch of `validateDrop`. -/
def sourceSameCheck (draggedItem : DragItemData) (dropZone : DropZoneData) :
    Bool :=
  if draggedItem.type = DragItemType.source then
    let targetFolderId : Option String :=
      if dropZone.type = DropZoneType.root then none
      else jsOrNull dropZone.folder_id
    jsStrictEq draggedItem.folder_id targetFolderId
  else false

/-- Embedding of `validateDrop` of `useDragAndDrop` (its early returns become
an if chain; the checks appear in source order). -/
def validateDrop (draggedItem : DragItemData) (draggedItems : List DragItemData)
    (dropZone : DropZoneData) (folderTree : Option FolderTreeResponse) : Bool :=
  if draggedItem.type = DragItemType.folder ∧ dropZone.type = DropZoneType.folder ∧
      dropZone.folder_id = some (some draggedItem.id) then
    false
  else if circularCheck draggedItem dropZone folderTree then false
  else if sourceSameCheck draggedItem dropZone then false
  else if draggedItems.length > 1 ∧
      draggedItems.any (fun i => i.type ≠ DragItemType.source) then false
  else true

/-! ## Structural helpers over forests (specification side) -/

/-- Whether a folder node with the given id occurs anywhere in the forest. -/
def containsFolderId (fid : String) : List TreeNode → Bool
  | [] => false
  | TreeNode.folder d cs :: rest =>
    d.id = fid || containsFolderId fid cs || containsFolderId fid rest
  | TreeNode.source _ :: rest => containsFolderId fid rest

/-- Whether the folder `T` occurs strictly inside the subtree of a folder
node with id `F`: that is, `F` lies on the root-to-`T` path. -/
def strictlyBelow (F T : String) : List TreeNode → Bool
  | [] => false
  | TreeNode.folder d cs :: rest =>
    (d.id = F && containsFolderId T cs) || strictlyBelow F T cs ||
      strictlyBelow F T rest
  | TreeNode.source _ :: rest => strictlyBelow F T rest

/-- All folder ids of a forest, in depth-first order. -/
def folderIds : List TreeNode → List String
  | [] => []
  | TreeNode.folder d cs :: rest => d.id :: (folderIds cs ++ folderIds rest)
  | TreeNode.source _ :: rest => folderIds rest

/-- Number of folder nodes of a forest. -/
def countFolders : List TreeNode → Nat
  | [] => 0
  | TreeNode.folder _ cs :: rest => 1 + countFolders cs + countFolders rest
  | TreeNode.source _ :: rest => countFolders rest

/-- All folder records of a forest (children stripped), in depth-first
order. -/
def folderInfos : List TreeNode → List FolderInfo
  | [] => []
  | TreeNode.folder d cs :: rest => d :: (folderInfos cs ++ folderInfos rest)
  | TreeNode.source _ :: rest => folderInfos rest

/-- The `subfolder_count` of the first folder node with the given id, in
depth-first order. -/
def subfolderCountOf (fid : String) : List TreeNode → Option Int
  | [] => none
  | TreeNode.folder d cs :: rest =>
    if d.id = fid then some d.subfolder_count
    else
      match subfolderCountOf fid cs with
      | some n => some n
      | none => subfolderCountOf fid rest
  | TreeNode.source _ :: rest => subfolderCountOf fid rest

/-- Structural induction principle for forests of tree nodes. -/
theorem forest_ind {motive : List TreeNode → Prop}
    (hnil : motive [])
    (hfolder : ∀ d cs rest, motive cs → motive rest →
      motive (TreeNode.folder d cs :: rest))
    (hsource : ∀ s rest, motive rest → motive (TreeNode.source s :: rest)) :
    ∀ forest, motive forest
  | [] => hnil
  | TreeNode.folder d cs :: rest =>
    hfolder d cs rest (forest_ind hnil hfolder hsource cs)
      (forest_ind hnil hfolder hsource rest)
  | TreeNode.source s :: rest =>
    hsource s rest (forest_ind hnil hfolder hsource rest)

theorem containsFolderId_iff_mem (T : String) :
    ∀ forest, containsFolderId T forest = true ↔ T ∈ folderIds forest := by
  intro forest
  induction forest using forest_ind with
  | hnil => simp [containsFolderId, folderIds]
  | hfolder d cs rest ihc ihr =>
    simp only [containsFolderId, folderIds, Bool.or_eq_true, decide_eq_true_eq,
      List.mem_cons, List.mem_append, ihc, ihr]
    constructor
    · rintro ((h | h) | h)
      · exact Or.inl h.symm
      · exact Or.inr (Or.inl h)
      · exact Or.inr (Or.inr h)
    · rintro (h | h | h)
      · exact Or.inl (Or.inl h.symm)
      · exact Or.inl (Or.inr h)
      · exact Or.inr h
  | hsource s rest ih => simp [containsFolderId, folderIds, ih]

theorem strictlyBelow_contains (F T : String) :
    ∀ forest, strictlyBelow F T forest = true → containsFolderId T forest = true := by
  intro forest
  induction forest using forest_ind with
  | hnil => simp [strictlyBelow]
  | hfolder d cs rest ihc ihr =>
    intro h
    simp only [strictlyBelow, Bool.or_eq_true, Bool.and_eq_true,
      decide_eq_true_eq] at h
    simp only [containsFolderId, Bool.or_eq_true, decide_eq_true_eq]
    rcases h with (⟨_, hc⟩ | h) | h
    · exact Or.inl (Or.inr hc)
    · exact Or.inl (Or.inr (ihc h))
    · exact Or.inr (ihr h)
  | hsource s rest ih =>
    intro h
    simp only [strictlyBelow] at h
    simp only [containsFolderId]
    exact ih h

theorem findParentPath_prefix (T : String) :
    ∀ forest, ∀ acc p, findParentPath T forest acc = some p → acc <+: p := by
  intro forest
  induction forest using forest_ind with
  | hnil =>
    intro acc p h
    simp [findParentPath] at h
  | hfolder d cs rest ihc ihr =>
    intro acc p h
    by_cases hdT : d.id = T
    · simp only [findParentPath, if_pos hdT] at h
      exact (Option.some.inj h) ▸ List.prefix_refl acc
    · simp only [findParentPath, if_neg hdT] at h
      cases hchild : findParentPath T cs (acc ++ [d.id]) with
      | some r =>
        rw [hchild] at h
        have := ihc (acc ++ [d.id]) p (by rw [hchild, ← h])
        exact (List.prefix_append acc [d.id]).trans this
      | none =>
        rw [hchild] at h
        exact ihr acc p h
  | hsource s rest ih =>
    intro acc p h
    simp only [findParentPath] at h
    exact ih acc p h

theorem findParentPath_contains (T : String) :
    ∀ forest, ∀ acc p, findParentPath T forest acc = some p →
      containsFolderId T forest = true := by
  intro forest
  induction forest using forest_ind with
  | hnil =>
    intro acc p h
    simp [findParentPath] at h
  | hfolder d cs rest ihc ihr =>
    intro acc p h
    simp only [containsFolderId, Bool.or_eq_true, decide_eq_true_eq]
    by_cases hdT : d.id = T
    · exact Or.inl (Or.inl hdT)
    · simp only [findParentPath, if_neg hdT] at h
      cases hchild : findParentPath T cs (acc ++ [d.id]) with
      | some r => exact Or.inl (Or.inr (ihc _ _ hchild))
      | none =>
        rw [hchild] at h
        exact Or.inr (ihr acc p h)
  | hsource s rest ih =>
    intro acc p h
    simp only [findParentPath] at h
    simp only [containsFolderId]
    exact ih acc p h

theorem findParentPath_sound (T : String) :
    ∀ forest, ∀ acc p, findParentPath T forest acc = some p →
      ∀ g ∈ p, g ∈ acc ∨ strictlyBelow g T forest = true := by
  intro forest
  induction forest using forest_ind with
  | hnil =>
    intro acc p h
    simp [findParentPath] at h
  | hfolder d cs rest ihc ihr =>
    intro acc p h g hg
    simp only [strictlyBelow, Bool.or_eq_true, Bool.and_eq_true,
      decide_eq_true_eq]
    by_cases hdT : d.id = T
    · simp only [findParentPath, if_pos hdT] at h
      exact Or.inl ((Option.some.inj h) ▸ hg)
    · simp only [findParentPath, if_neg hdT] at h
      cases hchild : findParentPath T cs (acc ++ [d.id]) with
      | some r =>
        rw [hchild] at h
        have hsound := ihc _ _ (hchild.trans h) g hg
        rcases hsound with hacc | hbelow
        · rcases List.mem_append.1 hacc with h1 | h2
          · exact Or.inl h1
          · have hgd : g = d.id := by simpa using h2
            refine Or.inr (Or.inl (Or.inl ⟨hgd.symm, ?_⟩))
            exact findParentPath_contains T cs _ _ (hchild.trans h)
        · exact Or.inr (Or.inl (Or.inr hbelow))
      | none =>
        rw [hchild] at h
        rcases ihr acc p h g hg with hacc | hbelow
        · exact Or.inl hacc
        · exact Or.inr (Or.inr hbelow)
  | hsource s rest ih =>
    intro acc p h g hg
    simp only [findParentPath] at h
    simp only [strictlyBelow]
    exact ih acc p h g hg

theorem findParentPath_isSome (T : String) :
    ∀ forest, containsFolderId T forest = true →
      ∀ acc, (findParentPath T forest acc).isSome := by
  intro forest
  induction forest using forest_ind with
  | hnil => simp [containsFolderId]
  | hfolder d cs rest ihc ihr =>
    intro h acc
    simp only [containsFolderId, Bool.or_eq_true, decide_eq_true_eq] at h
    by_cases hdT : d.id = T
    · simp [findParentPath, hdT]
    · simp only [findParentPath, if_neg hdT]
      rcases h with (h | h) | h
    

      · exact absurd h hdT
      · cases hchild : findParentPath T cs (acc ++ [d.id]) with
        | some r => simp
        | none =>
          have := ihc h (acc ++ [d.id])
          rw [hchild] at this
          simp at this
      · cases hchild : findParentPath T cs (acc ++ [d.id]) with
        | some r => simp
        | none => exact ihr h acc
  | hsource s rest ih =>
    intro h acc
    simp only [containsFolderId] at h
    simp only [findParentPath]
    exact ih h acc

theorem wouldCreateCircularReference_some (F tp : String)
    (tree : FolderTreeResponse) :
    wouldCreateCircularReference F (some tp) tree =
      (if tp = "" then false
       else if F = tp then true
       else
         match findParentPath tp tree.tree [] with
         | some targetPath => targetPath.contains F
         | none => false) := rfl

theorem findParentPath_complete (F T : String) :
    ∀ forest, (folderIds forest).Nodup → strictlyBelow F T forest = true →
      ∀ acc, ∃ p, findParentPath T forest acc = some p ∧ F ∈ p := by
  intro forest
  induction forest using forest_ind with
  | hnil =>
    intro _ h
    simp [strictlyBelow] at h
  | hfolder d cs rest ihc ihr =>
    intro hnodup hsb acc
    simp only [folderIds, List.nodup_cons, List.mem_append] at hnodup
    rcases hnodup with ⟨hhead, htail⟩
    rcases List.nodup_append.1 htail with ⟨hcs, hrest, hdisj⟩
    simp only [strictlyBelow, Bool.or_eq_true, Bool.and_eq_true,
      decide_eq_true_eq] at hsb
    rcases hsb with (⟨hdF, hTcs⟩ | hbelow) | hbelow
    · -- T occurs in the children of d, and d.id = F.
      have hTmem : T ∈ folderIds cs := (containsFolderId_iff_mem T cs).1 hTcs
      have hdT : d.id ≠ T := by
        intro h
        exact hhead (Or.inl (h ▸ hTmem))
      obtain ⟨p, hp⟩ :=
        Option.isSome_iff_exists.1 (findParentPath_isSome T cs hTcs (acc ++ [d.id]))
      refine ⟨p, ?_, ?_⟩
      · simp only [findParentPath, if_neg hdT, hp]
      · have hpre := findParentPath_prefix T cs (acc ++ [d.id]) p hp
        have : d.id ∈ acc ++ [d.id] := List.mem_append.2 (Or.inr (by simp))
        exact hdF ▸ (hpre.subset this)
    · -- F lies above T inside the children of d.
      have hTmem : T ∈ folderIds cs :=
        (containsFolderId_iff_mem T cs).1 (strictlyBelow_contains F T cs hbelow)
      have hdT : d.id ≠ T := by
        intro h
        exact hhead (Or.inl (h ▸ hTmem))
      obtain ⟨p, hp, hF⟩ := ihc hcs hbelow (acc ++ [d.id])
      refine ⟨p, ?_, hF⟩
      simp only [findParentPath, if_neg hdT, hp]
    · -- F lies above T inside the remaining forest.
      have hTmem : T ∈ folderIds rest :=
        (containsFolderId_iff_mem T rest).1 (strictlyBelow_contains F T rest hbelow)
      have hdT : d.id ≠ T := by
        intro h
        exact hhead (Or.inr (h ▸ hTmem))
      have hchild : findParentPath T cs (acc ++ [d.id]) = none := by
        cases hc : findParentPath T cs (acc ++ [d.id]) with
        | none => rfl
        | some r =>
          have := (containsFolderId_iff_mem T cs).1
            (findParentPath_contains T cs _ _ hc)
          exact absurd hTmem (hdisj this)
      obtain ⟨p, hp, hF⟩ := ihr hrest hbelow acc
      refine ⟨p, ?_, hF⟩
      simp only [findParentPath, if_neg hdT, hchild, hp]
  | hsource s rest ih =>
    intro hnodup hsb acc
    simp only [folderIds] at hnodup
    simp only [strictlyBelow] at hsb
    simp only [findParentPath]
    exact ih hnodup hsb acc

/-- C2: over a cached tree with unique folder ids, the client circular
reference check `wouldCreateCircularReference F T tree` returns true exactly
when `T` equals `F` or `F` lies on the root-to-`T` path; consequently
`validateDrop` rejects dropping folder `F` onto such a target `T`. -/
theorem circular_reference_check_correct (tree : FolderTreeResponse)
    (F T : String) (hnodup : (folderIds tree.tree).Nodup) (hT : T ≠ "") :
    (wouldCreateCircularReference F (some T) tree = true ↔
      (T = F ∨ strictlyBelow F T tree.tree = true)) ∧
    (∀ (item : DragItemData) (items : List DragItemData) (dz : DropZoneData),
      item.type = DragItemType.folder → item.id = F →
      dz.type = DropZoneType.folder → dz.folder_id = some (some T) →
      (T = F ∨ strictlyBelow F T tree.tree = true) →
      validateDrop item items dz (some tree) = false) := by
  have hmain : wouldCreateCircularReference F (some T) tree = true ↔
      (T = F ∨ strictlyBelow F T tree.tree = true) := by
    rw [wouldCreateCircularReference_some, if_neg hT]
    by_cases hFT : F = T
    · simp [hFT]
    · have hTF : ¬ T = F := fun h => hFT h.symm
      simp only [if_neg hFT]
      constructor
      · intro h
        cases hfind : findParentPath T tree.tree [] with
        | none =>
          rw [hfind] at h
          exact Bool.noConfusion h
        | some p =>
          rw [hfind] at h
          have hFp : F ∈ p := by simpa using h
          rcases findParentPath_sound T tree.tree [] p hfind F hFp with habs | hsb
          · simp at habs
          · exact Or.inr hsb
      · rintro (h | h)
        · exact absurd h hTF
        · obtain ⟨p, hp, hF⟩ := findParentPath_complete F T tree.tree hnodup h []
          rw [hp]
          simpa using hF
  refine ⟨hmain, ?_⟩
  intro item items dz htype hid hdz hdzf hcirc
  unfold validateDrop
  by_cases hself : item.type = DragItemType.folder ∧
      dz.type = DropZoneType.folder ∧ dz.folder_id = some (some item.id)
  · rw [if_pos hself]
  · rw [if_neg hself]
    have hTid : T ≠ item.id := by
      intro h
      exact hself ⟨htype, hdz, by rw [hdzf, h]⟩
    have hcirc2 : wouldCreateCircularReference item.id (some T) tree = true := by
      rw [hid]
      refine hmain.2 ?_
      rcases hcirc with h | h
      · exact absurd h (by rw [hid] at hTid; exact hTid)
      · exact Or.inr h
    have hcircEq : circularCheck item dz (some tree) = true := by
      unfold circularCheck
      simp [htype, hdz, hdzf, hT, hcirc2]
    rw [hcircEq, if_pos rfl]

/-- A bare folder record for concrete examples. -/
def mkFolder (fid : String) (sub : Int) : FolderInfo :=
  { id := fid, name := fid, description := none, parent_id := none, color := none,
    icon := none, position := 0, metadata := [], created_at := "", updated_at := "",
    source_count := 0, subfolder_count := sub, total_sources := 0 }

/-- Concrete two-folder tree: folder B nested inside folder A. -/
def exTreeAB : FolderTreeResponse :=
  { tree := [TreeNode.folder (mkFolder "A" 1) [TreeNode.folder (mkFolder "B" 0) []]],
    total_folders := 2, total_sources := none }

/-- Witness for C2: dropping folder A onto its descendant B is rejected. -/
theorem circular_reference_check_correct_witness :
    validateDrop
      { type := DragItemType.folder, id := "A", name := none, folder_id := none }
      []
      { type := DropZoneType.folder, folder_id := some (some "B") }
      (some exTreeAB) = false :=
  (circular_reference_check_correct exTreeAB "A" "B"
    (by simp [exTreeAB, folderIds, mkFolder])
    (by decide)).2
    { type := DragItemType.folder, id := "A", name := none, folder_id := none }
    []
    { type := DropZoneType.folder, folder_id := some (some "B") }
    rfl rfl rfl rfl
    (Or.inr (by simp [exTreeAB, strictlyBelow, containsFolderId, mkFolder]))

/-! ## Query keys and the query cache (useFolderQueries) -/

/-- A component of a TanStack query key: a string literal or the
`{ parentId }` object of `folderKeys.list` (with `parentId` possibly absent,
null, or a string). -/
inductive KeyPart where
  | str (s : String)
  | param (parentId : Option (Option String))
  deriving DecidableEq, Repr

/-- The query key factory `folderKeys`. -/
def folderKeys.all : List KeyPart := [KeyPart.str "folders"]

def folderKeys.lists : List KeyPart := folderKeys.all ++ [KeyPart.str "list"]

def folderKeys.list (parentId : Option (Option String)) : List KeyPart :=
  folderKeys.lists ++ [KeyPart.param parentId]

def folderKeys.tree : List KeyPart := folderKeys.all ++ [KeyPart.str "tree"]

def folderKeys.details : List KeyPart := folderKeys.all ++ [KeyPart.str "detail"]

def folderKeys.detail (id : String) : List KeyPart :=
  folderKeys.details ++ [KeyPart.str id]

/-- The part of the query cache the folder mutations touch: the tree query,
the list queries (keyed by their `parentId`), and the folder detail queries.
An entry with data `none` is an existing query whose data is `undefined`. -/
structure QueryCache where
  tree : Option FolderTreeResponse
  lists : List ((Option (Option String)) × Option FolderListResponse)
  details : List (String × Option FolderInfo)

/-- A cache operation recorded by a mutation handler, in program order. -/
inductive CacheOp where
  | cancel (key : List KeyPart)
  | write (key : List KeyPart)
  deriving DecidableEq, Repr

/-- `setQueryData` with a defined value on an association list: overwrite the
entries with the key, or create the query when absent. -/
def setEntry {α β : Type} [DecidableEq α] (l : List (α × Option β)) (k : α)
    (v : β) : List (α × Option β) :=
  if l.any (fun q => q.1 = k) then
    l.map (fun q => if q.1 = k then (k, some v) else q)
  else
    l ++ [(k, some v)]

/-- `getQueryData` on an association list: data of the first entry with the
key (`none` both for a missing query and for one with `undefined` data). -/
def lookupEntry {α β : Type} [DecidableEq α] (l : List (α × Option β))
    (k : α) : Option β :=
  match l.find? (fun q => q.1 = k) with
  | some q => q.2
  | none => none

/-- Result of an `onMutate` handler: updated cache, snapshot context, and the
trace of cancel and write operations in program order. -/
structure MutateResult (Ctx : Type) where
  cache : QueryCache
  ctx : Ctx
  ops : List CacheOp

/-! ## Create folder mutation (useCreateFolder) -/

/-- Modelled from the spec: the shared helper `createOptimisticEntity` (its
source lies outside this repository) wraps the supplied fields together with
a generated temporary id, as exercised by the test mock of
`useFolderQueries.test.ts`.  The fields are the ones `useCreateFolder.onMutate`
passes: `folderData.position || 0` and `folderData.metadata || {}` are
identities on the embedded types and appear as the plain fields. -/
def optimisticFolder (folderData : FolderCreate) (now tempFolderId : String) :
    FolderInfo :=
  { id := tempFolderId,
    name := folderData.name,
    description := jsOrNull folderData.description,
    parent_id := some (jsOrNull folderData.parent_id),
    color := jsOrNull folderData.color,
    icon := jsOrNull folderData.icon,
    position := folderData.position,
    metadata := folderData.metadata,
    created_at := now,
    updated_at := now,
    source_count := 0,
    subfolder_count := 0,
    total_sources := 0 }

/-- Embedding of the `addToParent` closure of `useCreateFolder.onMutate`:
append `newNode` to the children of the folder with id `pid` (no recursion
below a matching folder) and bump its `subfolder_count`. -/
def addToParent (pid : String) (newNode : TreeNode) :
    List TreeNode → List TreeNode
  | [] => []
  | TreeNode.folder d cs :: rest =>
    (if d.id = pid then
      TreeNode.folder { d with subfolder_count := d.subfolder_count + 1 }
        (cs ++ [newNode])
    else
      TreeNode.folder d (addToParent pid newNode cs)) ::
      addToParent pid newNode rest
  | TreeNode.source s :: rest => TreeNode.source s :: addToParent pid newNode rest

/-- The tree updater of `useCreateFolder.onMutate`: add at the root when
`folderData.parent_id` is falsy, otherwise beneath the parent folder. -/
def createTreeUpdate (folderData : FolderCreate) (treeNode : TreeNode)
    (old : FolderTreeResponse) : FolderTreeResponse :=
  match folderData.parent_id with
  | some (some p) =>
    if p = "" then
      { old with tree := old.tree ++ [treeNode],
                 total_folders := old.total_folders + 1 }
    else
      { old with tree := addToParent p treeNode old.tree,
                 total_folders := old.total_folders + 1 }
  | _ =>
    { old with tree := old.tree ++ [treeNode],
               total_folders := old.total_folders + 1 }

/-- The `matchesParent` condition of the list updater of
`useCreateFolder.onMutate`. -/
def matchesParent (listKeyParentId dataParentId : Option (Option String)) :
    Bool :=
  (listKeyParentId = dataParentId) ||
    (!jsTruthy listKeyParentId && !jsTruthy dataParentId) ||
    (listKeyParentId = some none && !jsTruthy dataParentId)

/-- The list updater of `useCreateFolder.onMutate` for one cached list. -/
def createListUpdate (folderData : FolderCreate) (optFolder : FolderInfo)
    (listKeyParentId : Option (Option String)) (old : FolderListResponse) :
    FolderListResponse :=
  if matchesParent listKeyParentId folderData.parent_id then
    { folders := old.folders ++ [optFolder], total := old.total + 1 }
  else old

/-- The data an optimistic list write leaves for one cache entry: an
`undefined` list stays untouched (the updater returns it unchanged), a
present list goes through `createListUpdate`. -/
def createListEntryData (folderData : FolderCreate) (optFolder : FolderInfo)
    (q : (Option (Option String)) × Option FolderListResponse) :
    Option FolderListResponse :=
  match q.2 with
  | none => none
  | some old => some (createListUpdate folderData optFolder q.1 old)

/-- The `forEach` of `setQueryData(key, previousData)` calls of the restore
path: `setQueryData` with `undefined` is a no-op. -/
def restoreEntries {α β : Type} [DecidableEq α]
    (lists : List (α × Option β)) (prev : List (α × Option β)) :
    List (α × Option β) :=
  prev.foldl (fun acc q =>
    match q.2 with
    | some v => setEntry acc q.1 v
    | none => acc) lists

/-- Context snapshot returned by `useCreateFolder.onMutate`. -/
structure CreateContext where
  previousTree : Option FolderTreeResponse
  previousLists : List ((Option (Option String)) × Option FolderListResponse)
  tempFolderId : String

/-- Embedding of `useCreateFolder.onMutate`. -/
def createOnMutate (cache : QueryCache) (folderData : FolderCreate)
    (now tempFolderId : String) : MutateResult CreateContext :=
  let ops0 : List CacheOp :=
    [CacheOp.cancel folderKeys.tree, CacheOp.cancel folderKeys.lists]
  let previousTree := cache.tree
  let previousLists := cache.lists
  let optFolder := optimisticFolder folderData now tempFolderId
  let treeNode : TreeNode := TreeNode.folder optFolder []
  let step1 : Option FolderTreeResponse × List CacheOp :=
    match previousTree with
    | some old =>
      (some (createTreeUpdate folderData treeNode old),
        ops0 ++ [CacheOp.write folderKeys.tree])
    | none => (cache.tree, ops0)
  let lists1 := cache.lists.map (fun q =>
    (q.1, createListEntryData folderData optFolder q))
  let ops2 := step1.2 ++ previousLists.map
    (fun q => CacheOp.write (folderKeys.list q.1))
  { cache := { cache with tree := step1.1, lists := lists1 },
    ctx := { previousTree := previousTree, previousLists := previousLists,
             tempFolderId := tempFolderId },
    ops := ops2 }

/-- Embedding of `useCreateFolder.onError`: restore the snapshots. -/
def createOnError (cache : QueryCache) (ctx : CreateContext) : QueryCache :=
  let cache1 :=
    match ctx.previousTree with
    | some t => { cache with tree := some t }
    | none => cache
  { cache1 with
    lists := restoreEntries cache1.lists ctx.previousLists }

/-! ## Update folder mutation (useUpdateFolder) -/

/-- The `FolderUpdate` payload.  An absent field is `none`.  A present
`parent_id` may be null; the other nullable-update fields are embedded with
their non-null payloads only, since the cached `Folder` record cannot hold a
null there. -/
structure FolderUpdate where
  name : Option String
  description : Option (Option String)
  color : Option (Option String)
  icon : Option (Option String)
  position : Option Int
  parent_id : Option (Option String)
  metadata : Option (List (String × String))
  deriving DecidableEq, Repr

/-- The spread `{ ...old, ...updates, updated_at: now }` of
`useUpdateFolder.onMutate`. -/
def applyFolderUpdate (old : FolderInfo) (updates : FolderUpdate)
    (now : String) : FolderInfo :=
  { id := old.id,
    name := updates.name.getD old.name,
    description :=
      match updates.description with
      | some v => v
      | none => old.description,
    parent_id :=
      match updates.parent_id with
      | some v => some v
      | none => old.parent_id,
    color :=
      match updates.color with
      | some v => v
      | none => old.color,
    icon :=
      match updates.icon with
      | some v => v
      | none => old.icon,
    position := updates.position.getD old.position,
    metadata := updates.metadata.getD old.metadata,
    created_at := old.created_at,
    updated_at := now,
    source_count := old.source_count,
    subfolder_count := old.subfolder_count,
    total_sources := old.total_sources }

/-- Context snapshot returned by `useUpdateFolder.onMutate`. -/
structure UpdateContext where
  previousFolder : Option FolderInfo
  previousTree : Option FolderTreeResponse

/-- Embedding of `useUpdateFolder.onMutate`. -/
def updateOnMutate (cache : QueryCache) (folderId : String)
    (updates : FolderUpdate) (now : String) : MutateResult UpdateContext :=
  let ops0 : List CacheOp :=
    [CacheOp.cancel (folderKeys.detail folderId), CacheOp.cancel folderKeys.tree]
  let previousFolder := lookupEntry cache.details folderId
  let previousTree := cache.tree
  let step1 : List (String × Option FolderInfo) × List CacheOp :=
    match previousFolder with
    | some oldF =>
      (setEntry cache.details folderId (applyFolderUpdate oldF updates now),
        ops0 ++ [CacheOp.write (folderKeys.detail folderId)])
    | none => (cache.details, ops0)
  { cache := { cache with details := step1.1 },
    ctx := { previousFolder := previousFolder, previousTree := previousTree },
    ops := step1.2 }

/-- Embedding of `useUpdateFolder.onError`: restore the snapshots. -/
def updateOnError (cache : QueryCache) (folderId : String)
    (ctx : UpdateContext) : QueryCache :=
  let cache1 :=
    match ctx.previousFolder with
    | some f => { cache with details := setEntry cache.details folderId f }
    | none => cache
  match ctx.previousTree with
  | some t => { cache1 with tree := some t }
  | none => cache1

/-! ## Delete folder mutation (useDeleteFolder) -/

/-- Embedding of the `removeFolder` closure of `useDeleteFolder.onMutate`:
drop every folder node with the id (with its whole subtree) at every level. -/
def removeFolder (folderId : String) : List TreeNode → List TreeNode
  | [] => []
  | TreeNode.folder d cs :: rest =>
    if d.id = folderId then removeFolder folderId rest
    else TreeNode.folder d (removeFolder folderId cs) :: removeFolder folderId rest
  | TreeNode.source s :: rest => TreeNode.source s :: removeFolder folderId rest

/-- The tree updater of `useDeleteFolder.onMutate`. -/
def deleteTreeUpdate (old : FolderTreeResponse) (folderId : String) :
    FolderTreeResponse :=
  { old with tree := removeFolder folderId old.tree,
             total_folders := max 0 (old.total_folders - 1) }

/-- Context snapshot returned by `useDeleteFolder.onMutate`. -/
structure DeleteContext where
  previousTree : Option FolderTreeResponse

/-- Embedding of `useDeleteFolder.onMutate`. -/
def deleteOnMutate (cache : QueryCache) (folderId : String) :
    MutateResult DeleteContext :=
  let ops0 : List CacheOp := [CacheOp.cancel folderKeys.tree]
  let previousTree := cache.tree
  let step1 : Option FolderTreeResponse × List CacheOp :=
    match previousTree with
    | some old =>
      (some (deleteTreeUpdate old folderId),
        ops0 ++ [CacheOp.write folderKeys.tree])
    | none => (cache.tree, ops0)
  { cache := { cache with tree := step1.1 },
    ctx := { previousTree := previousTree },
    ops := step1.2 }

/-- Embedding of `useDeleteFolder.onError`: restore the snapshot. -/
def deleteOnError (cache : QueryCache) (ctx : DeleteContext) : QueryCache :=
  match ctx.previousTree with
  | some t => { cache with tree := some t }
  | none => cache

/-- C8: in each folder mutation with optimistic cache writes, the `onMutate`
trace opens with the cancellations of the affected query keys, and every
later operation is a write to a key covered by one of those cancellations. -/
theorem cancel_queries_before_optimistic_writes :
    (∀ (cache : QueryCache) (x : FolderCreate) (now tid : String), ∃ ws,
      (createOnMutate cache x now tid).ops =
        [CacheOp.cancel folderKeys.tree, CacheOp.cancel folderKeys.lists] ++ ws ∧
      ∀ op ∈ ws, ∃ k, op = CacheOp.write k ∧
        (folderKeys.tree <+: k ∨ folderKeys.lists <+: k)) ∧
    (∀ (cache : QueryCache) (fid : String) (upd : FolderUpdate) (now : String),
      ∃ ws,
      (updateOnMutate cache fid upd now).ops =
        [CacheOp.cancel (folderKeys.detail fid), CacheOp.cancel folderKeys.tree] ++
          ws ∧
      ∀ op ∈ ws, ∃ k, op = CacheOp.write k ∧
        (folderKeys.detail fid <+: k ∨ folderKeys.tree <+: k)) ∧
    (∀ (cache : QueryCache) (fid : String), ∃ ws,
      (deleteOnMutate cache fid).ops = [CacheOp.cancel folderKeys.tree] ++ ws ∧
      ∀ op ∈ ws, ∃ k, op = CacheOp.write k ∧ folderKeys.tree <+: k) := by
  refine ⟨?_, ?_, ?_⟩
  · intro cache x now tid
    cases hc : cache.tree with
    | some old =>
      refine ⟨CacheOp.write folderKeys.tree ::
        cache.lists.map (fun q => CacheOp.write (folderKeys.list q.1)), ?_, ?_⟩
      · simp [createOnMutate, hc]
      · intro op hop
        rcases List.mem_cons.1 hop with h | h
        · exact ⟨folderKeys.tree, h, Or.inl (List.prefix_refl _)⟩
        · rcases List.mem_map.1 h with ⟨q, _, hq⟩
          exact ⟨folderKeys.list q.1, hq.symm,
            Or.inr ⟨[KeyPart.param q.1], rfl⟩⟩
    | none =>
      refine ⟨cache.lists.map (fun q => CacheOp.write (folderKeys.list q.1)),
        ?_, ?_⟩
      · simp [createOnMutate, hc]
      · intro op hop
        rcases List.mem_map.1 hop with ⟨q, _, hq⟩
        exact ⟨folderKeys.list q.1, hq.symm, Or.inr ⟨[KeyPart.param q.1], rfl⟩⟩
  · intro cache fid upd now
    cases hc : lookupEntry cache.details fid with
    | some oldF =>
      refine ⟨[CacheOp.write (folderKeys.detail fid)], ?_, ?_⟩
      · simp [updateOnMutate, hc]
      · intro op hop
        rcases List.mem_singleton.1 hop with h
        exact ⟨folderKeys.detail fid, h, Or.inl (List.prefix_refl _)⟩
    | none =>
      refine ⟨[], ?_, ?_⟩
      · simp [updateOnMutate, hc]
      · intro op hop
        cases hop
  · intro cache fid
    cases hc : cache.tree with
    | some old =>
      refine ⟨[CacheOp.write folderKeys.tree], ?_, ?_⟩
      · simp [deleteOnMutate, hc]
      · intro op hop
        rcases List.mem_singleton.1 hop with h
        exact ⟨folderKeys.tree, h, List.prefix_refl _⟩
    | none =>
      refine ⟨[], ?_, ?_⟩
      · simp [deleteOnMutate, hc]
      · intro op hop
        cases hop

theorem map_id_of_eq {α : Type} (l : List α) (f : α → α)
    (h : ∀ e ∈ l, f e = e) : l.map f = l := by
  induction l with
  | nil => rfl
  | cons x xs ih =>
    simp only [List.map_cons, h x (List.mem_cons_self x xs)]
    rw [ih (fun e he => h e (List.mem_cons_of_mem x he))]

theorem setEntry_middle {α β : Type} [DecidableEq α]
    (l1 l2 : List (α × Option β)) (k : α) (d : Option β) (v : β)
    (h1 : ∀ e ∈ l1, e.1 ≠ k) (h2 : ∀ e ∈ l2, e.1 ≠ k) :
    setEntry (l1 ++ (k, d) :: l2) k v = l1 ++ (k, some v) :: l2 := by
  unfold setEntry
  rw [if_pos (by
    refine List.any_eq_true.2 ⟨(k, d), ?_, by simp⟩
    exact List.mem_append.2 (Or.inr (List.mem_cons_self _ _)))]
  rw [List.map_append, List.map_cons]
  rw [map_id_of_eq l1 _ (fun e he => by simp [h1 e he])]
  rw [map_id_of_eq l2 _ (fun e he => by simp [h2 e he])]
  simp

theorem restore_fold {α β : Type} [DecidableEq α]
    (tfun : (α × Option β) → Option β)
    (htf : ∀ q, q.2 = none → tfun q = none) :
    ∀ (todo done : List (α × Option β)),
      ((done ++ todo).map Prod.fst).Nodup →
      restoreEntries (done ++ todo.map (fun q => (q.1, tfun q))) todo =
        done ++ todo := by
  intro todo
  induction todo with
  | nil =>
    intro done _
    simp [restoreEntries]
  | cons q rest ih =>
    intro done hnodup
    have hnodup2 : ((done ++ q :: rest).map Prod.fst).Nodup := hnodup
    rw [List.map_append] at hnodup2
    rcases List.nodup_append.1 hnodup2 with ⟨hd, hr, hdisj⟩
    have hqdone : ∀ e ∈ done, e.1 ≠ q.1 := by
      intro e he hcon
      exact hdisj (List.mem_map_of_mem Prod.fst he) (by simp [hcon])
    have hqrestm : ∀ e ∈ rest.map (fun q2 => (q2.1, tfun q2)), e.1 ≠ q.1 := by
      intro e he
      rcases List.mem_map.1 he with ⟨q2, hq2, hq2e⟩
      rw [← hq2e]
      intro hcon
      simp only [List.map_cons, List.nodup_cons] at hr
      have hmem : q2.1 ∈ rest.map Prod.fst := List.mem_map_of_mem Prod.fst hq2
      have hcon2 : q2.1 = q.1 := hcon
      exact hr.1 (hcon2 ▸ hmem)
    have hassoc : done ++ q :: rest = (done ++ [q]) ++ rest := by simp
    have hih := ih (done ++ [q]) (by rw [← hassoc]; exact hnodup)
    unfold restoreEntries at hih ⊢
    rw [List.foldl_cons]
    cases hq2 : q.2 with
    | none =>
      have htq : tfun q = none := htf q hq2
      simp only [hq2]
      have hacc : done ++ (q :: rest).map (fun q2 => (q2.1, tfun q2)) =
          (done ++ [q]) ++ rest.map (fun q2 => (q2.1, tfun q2)) := by
        simp only [List.map_cons, htq]
        have hqeq : (q.1, (none : Option β)) = q := by
          cases q with
          | mk a b => simp at hq2; simp [hq2]
        rw [hqeq]
        simp
      rw [hacc, hih]
      exact hassoc.symm
    | some v =>
      simp only [hq2]
      have hset : setEntry
          (done ++ (q :: rest).map (fun q2 => (q2.1, tfun q2))) q.1 v =
          (done ++ [q]) ++ rest.map (fun q2 => (q2.1, tfun q2)) := by
        simp only [List.map_cons]
        rw [setEntry_middle done (rest.map (fun q2 => (q2.1, tfun q2)))
          q.1 (tfun q) v hqdone hqrestm]
        have hqeq : (q.1, some v) = q := by
          cases q with
          | mk a b => simp at hq2; simp [hq2]
        rw [hqeq]
        simp
      rw [hset, hih]
      exact hassoc.symm

theorem setEntry_cons_of_any {α β : Type} [DecidableEq α]
    (q0 : α × Option β) (l : List (α × Option β)) (k : α) (v : β)
    (hq : ¬ q0.1 = k) (hany : l.any (fun q => q.1 = k) = true) :
    setEntry (q0 :: l) k v = q0 :: setEntry l k v := by
  unfold setEntry
  rw [if_pos (by simp [List.any_cons, hany]), if_pos hany]
  simp [hq]

theorem setEntry_any_self {α β : Type} [DecidableEq α]
    (l : List (α × Option β)) (k : α) (v : β) :
    (setEntry l k v).any (fun q => q.1 = k) = true := by
  unfold setEntry
  split
  · next hany =>
    rcases List.any_eq_true.1 hany with ⟨q1, hq1, hq1k⟩
    refine List.any_eq_true.2 ⟨(k, some v), ?_, by simp⟩
    refine List.mem_map.2 ⟨q1, hq1, ?_⟩
    simp only [show q1.1 = k by simpa using hq1k]
    simp
  · refine List.any_eq_true.2 ⟨(k, some v), by simp, by simp⟩

theorem setEntry_setEntry_restore {α β : Type} [DecidableEq α] :
    ∀ (l : List (α × Option β)) (k : α) (v : β) (x : β),
      (l.map Prod.fst).Nodup → lookupEntry l k = some v →
      setEntry (setEntry l k x) k v = l := by
  intro l
  induction l with
  | nil =>
    intro k v x _ hlook
    simp [lookupEntry] at hlook
  | cons q0 rest ih =>
    intro k v x hnodup hlook
    simp only [List.map_cons, List.nodup_cons] at hnodup
    rcases hnodup with ⟨hhead, hrest⟩
    by_cases hq : q0.1 = k
    · have hq02 : q0.2 = some v := by
        simp only [lookupEntry, List.find?_cons, hq] at hlook
        simpa [lookupEntry] using hlook
      have hrestk : ∀ e ∈ rest, e.1 ≠ k := by
        intro e he hcon
        exact hhead (hq ▸ hcon ▸ List.mem_map_of_mem Prod.fst he)
      have h1 : setEntry (q0 :: rest) k x = (k, some x) :: rest := by
        have := setEntry_middle ([] : List (α × Option β)) rest k q0.2 x
          (by intro e he; cases he) hrestk
        simp only [List.nil_append] at this
        have hq0 : q0 = (k, q0.2) := by
          cases q0 with
          | mk a b => simp at hq; simp [hq]
        rw [hq0]
        exact this
      rw [h1]
      have h2 : setEntry ((k, some x) :: rest) k v = (k, some v) :: rest := by
        have := setEntry_middle ([] : List (α × Option β)) rest k (some x) v
          (by intro e he; cases he) hrestk
        simpa using this
      rw [h2]
      have hq0 : q0 = (k, some v) := by
        cases q0 with
        | mk a b => simp at hq hq02; simp [hq, hq02]
      rw [← hq0]
    · have hlook2 : lookupEntry rest k = some v := by
        simpa [lookupEntry, List.find?_cons, hq] using hlook
      have hany : rest.any (fun q => q.1 = k) = true := by
        simp only [lookupEntry] at hlook2
        cases hfind : rest.find? (fun q => decide (q.1 = k)) with
        | none => rw [hfind] at hlook2; simp at hlook2
        | some q1 =>
          refine List.any_eq_true.2 ⟨q1, List.mem_of_find?_eq_some hfind, ?_⟩
          have := List.find?_some hfind
          simpa using this
      have h1 : setEntry (q0 :: rest) k x = q0 :: setEntry rest k x :=
        setEntry_cons_of_any q0 rest k x hq hany
      have h2 : setEntry (q0 :: setEntry rest k x) k v =
          q0 :: setEntry (setEntry rest k x) k v :=
        setEntry_cons_of_any q0 (setEntry rest k x) k v hq
          (setEntry_any_self rest k x)
      rw [h1, h2, ih k v x hrest hlook2]

/-- C3: for each folder mutation with optimistic updates (create, update,
delete), running `onError` after `onMutate` restores the query cache to its
pre-mutation state: the tree, the list queries, and the folder detail all
equal their snapshots. -/
theorem optimistic_rollback (cache : QueryCache)
    (hl : (cache.lists.map Prod.fst).Nodup)
    (hd : (cache.details.map Prod.fst).Nodup) :
    (∀ (x : FolderCreate) (now tid : String),
      createOnError (createOnMutate cache x now tid).cache
        (createOnMutate cache x now tid).ctx = cache) ∧
    (∀ (fid : String) (upd : FolderUpdate) (now : String),
      updateOnError (updateOnMutate cache fid upd now).cache fid
        (updateOnMutate cache fid upd now).ctx = cache) ∧
    (∀ (fid : String),
      deleteOnError (deleteOnMutate cache fid).cache
        (deleteOnMutate cache fid).ctx = cache) := by
  obtain ⟨tr, ls, ds⟩ := cache
  simp only [] at hl hd
  refine ⟨?_, ?_, ?_⟩
  · intro x now tid
    have hrestore := restore_fold
      (createListEntryData x (optimisticFolder x now tid))
      (by
        intro q hq
        unfold createListEntryData
        rw [hq]) ls []
    simp only [List.nil_append] at hrestore
    cases tr with
    | some t =>
      simp only [createOnMutate, createOnError]
      exact congrArg (fun l => QueryCache.mk (some t) l ds) (hrestore hl)
    | none =>
      simp only [createOnMutate, createOnError]
      exact congrArg (fun l => QueryCache.mk none l ds) (hrestore hl)
  · intro fid upd now
    cases hlook : lookupEntry ds fid with
    | some f =>
      simp only [updateOnMutate, updateOnError, hlook]
      have := setEntry_setEntry_restore ds fid f
        (applyFolderUpdate f upd now) hd hlook
      cases tr with
      | some t => simp [this]
      | none => simp [this]
    | none =>
      simp only [updateOnMutate, updateOnError, hlook]
      cases tr with
      | some t => simp
      | none => simp
  · intro fid
    cases tr with
    | some t => simp [deleteOnMutate, deleteOnError]
    | none => simp [deleteOnMutate, deleteOnError]

theorem countFolders_append :
    ∀ l1 l2 : List TreeNode,
      countFolders (l1 ++ l2) = countFolders l1 + countFolders l2 := by
  intro l1
  induction l1 using forest_ind with
  | hnil =>
    intro l2
    simp [countFolders]
  | hfolder d cs rest ihc ihr =>
    intro l2
    simp only [List.cons_append, countFolders, ihr l2]
    omega
  | hsource s rest ih =>
    intro l2
    simp only [List.cons_append, countFolders, ih l2]

theorem countFolders_addToParent (p : String) (newNode : TreeNode) :
    ∀ forest, (folderIds forest).Nodup →
      countFolders (addToParent p newNode forest) =
        countFolders forest +
          (if containsFolderId p forest = true then countFolders [newNode]
           else 0) := by
  intro forest
  induction forest using forest_ind with
  | hnil =>
    intro _
    simp [addToParent, countFolders, containsFolderId]
  | hfolder d cs rest ihc ihr =>
    intro hnodup
    simp only [folderIds, List.nodup_cons, List.mem_append] at hnodup
    rcases hnodup with ⟨hhead, htail⟩
    rcases List.nodup_append.1 htail with ⟨hcs, hrest, hdisj⟩
    by_cases hdp : d.id = p
    · have hrestno : containsFolderId p rest = false := by
        cases hcr : containsFolderId p rest with
        | false => rfl
        | true =>
          exact absurd (Or.inr (hdp ▸ (containsFolderId_iff_mem p rest).1 hcr))
            hhead
      simp only [addToParent, if_pos hdp, countFolders, ihr hrest, hrestno,
        countFolders_append, containsFolderId]
      simp [hdp, countFolders]
      omega
    · have hnotboth : ¬ (containsFolderId p cs = true ∧
          containsFolderId p rest = true) := by
        rintro ⟨h1, h2⟩
        exact hdisj ((containsFolderId_iff_mem p cs).1 h1)
          ((containsFolderId_iff_mem p rest).1 h2)
      simp only [addToParent, if_neg hdp, countFolders, ihc hcs, ihr hrest,
        containsFolderId]
      cases h1 : containsFolderId p cs with
      | true =>
        have h2 : containsFolderId p rest = false := by
          cases h2 : containsFolderId p rest with
          | false => rfl
          | true => exact absurd ⟨h1, h2⟩ hnotboth
        simp [hdp, h1, h2]
        omega
      | false =>
        cases h2 : containsFolderId p rest with
        | true =>
          simp [hdp, h1, h2]
          omega
        | false =>
          simp [hdp, h1, h2]
  | hsource s rest ih =>
    intro hnodup
    simp only [folderIds] at hnodup
    simp only [addToParent, countFolders, containsFolderId, ih hnodup]

theorem subfolderCountOf_addToParent (p : String) (newNode : TreeNode) :
    ∀ forest,
      subfolderCountOf p (addToParent p newNode forest) =
        (subfolderCountOf p forest).map (fun n => n + 1) := by
  intro forest
  induction forest using forest_ind with
  | hnil => simp [addToParent, subfolderCountOf]
  | hfolder d cs rest ihc ihr =>
    by_cases hdp : d.id = p
    · simp [addToParent, if_pos hdp, subfolderCountOf, hdp]
    · simp only [addToParent, if_neg hdp, subfolderCountOf, ihc, ihr]
      cases hcs : subfolderCountOf p cs with
      | some n => simp [hcs]
      | none => simp [hcs, ihr]
  | hsource s rest ih =>
    simp [addToParent, subfolderCountOf, ih]

theorem matchesParent_norm (a b : Option (Option String)) :
    matchesParent a b = true ↔ jsOrNull a = jsOrNull b := by
  rcases a with _ | a2
  · rcases b with _ | b2
    · simp [matchesParent, jsOrNull, jsTruthy]
    · rcases b2 with _ | bs
      · simp [matchesParent, jsOrNull, jsTruthy]
      · by_cases hb : bs = "" <;>
          simp [matchesParent, jsOrNull, jsTruthy, strTruthy, hb]
  · rcases a2 with _ | as2
    · rcases b with _ | b2
      · simp [matchesParent, jsOrNull, jsTruthy]
      · rcases b2 with _ | bs
        · simp [matchesParent, jsOrNull, jsTruthy]
        · by_cases hb : bs = "" <;>
            simp [matchesParent, jsOrNull, jsTruthy, strTruthy, hb]
    · rcases b with _ | b2
      · by_cases ha : as2 = "" <;>
          simp [matchesParent, jsOrNull, jsTruthy, strTruthy, ha]
      · rcases b2 with _ | bs
        · by_cases ha : as2 = "" <;>
            simp [matchesParent, jsOrNull, jsTruthy, strTruthy, ha]
        · by_cases ha : as2 = "" <;> by_cases hb : bs = ""
          · simp [matchesParent, jsOrNull, jsTruthy, strTruthy, ha, hb]
          · simp [matchesParent, jsOrNull, jsTruthy, strTruthy, ha, hb]
            exact fun h => hb h.symm
          · simp [matchesParent, jsOrNull, jsTruthy, strTruthy, ha, hb]
          · simp [matchesParent, jsOrNull, jsTruthy, strTruthy, ha, hb]

/-- C4: over a cached tree with unique folder ids (and the parent present in
the tree when one is named), the optimistic create inserts exactly one folder
node — at the root when `parent_id` is falsy, otherwise under the parent,
whose `subfolder_count` grows by one — increments `total_folders` by one, and
appends the optimistic folder (bumping `total`) to exactly the cached lists
whose `parentId` denotes the same parent. -/
theorem create_folder_adds_one (tree : FolderTreeResponse) (x : FolderCreate)
    (now tid : String)
    (hnodup : (folderIds tree.tree).Nodup)
    (hparent : ∀ p, x.parent_id = some (some p) → p ≠ "" →
      containsFolderId p tree.tree = true) :
    (countFolders (createTreeUpdate x
        (TreeNode.folder (optimisticFolder x now tid) []) tree).tree =
      countFolders tree.tree + 1 ∧
     (createTreeUpdate x
        (TreeNode.folder (optimisticFolder x now tid) []) tree).total_folders =
      tree.total_folders + 1) ∧
    (∀ p, x.parent_id = some (some p) → p ≠ "" →
      subfolderCountOf p (createTreeUpdate x
          (TreeNode.folder (optimisticFolder x now tid) []) tree).tree =
        (subfolderCountOf p tree.tree).map (fun n => n + 1)) ∧
    (∀ (k : Option (Option String)) (old : FolderListResponse),
      (jsOrNull k = jsOrNull x.parent_id →
        createListUpdate x (optimisticFolder x now tid) k old =
          { folders := old.folders ++ [optimisticFolder x now tid],
            total := old.total + 1 }) ∧
      (jsOrNull k ≠ jsOrNull x.parent_id →
        createListUpdate x (optimisticFolder x now tid) k old = old)) := by
  have hcount1 : countFolders [TreeNode.folder (optimisticFolder x now tid) []] = 1 := by
    simp [countFolders]
  refine ⟨?_, ?_, ?_⟩
  · unfold createTreeUpdate
    match hx : x.parent_id with
    | some (some p) =>
      by_cases hp : p = ""
      · simp only [if_pos hp, countFolders_append, hcount1]
        constructor <;> trivial
      · simp only [if_neg hp]
        constructor
        · rw [countFolders_addToParent p _ tree.tree hnodup,
            if_pos (hparent p hx hp), hcount1]
        · trivial
    | some none =>
      simp only [countFolders_append, hcount1]
      constructor <;> trivial
    | none =>
      simp only [countFolders_append, hcount1]
      constructor <;> trivial
  · intro p hx hp
    unfold createTreeUpdate
    rw [hx]
    simp only [if_neg hp]
    exact subfolderCountOf_addToParent p _ tree.tree
  · intro k old
    constructor
    · intro hk
      unfold createListUpdate
      rw [if_pos ((matchesParent_norm k x.parent_id).2 hk)]
    · intro hk
      unfold createListUpdate
      rw [if_neg (fun hm => hk ((matchesParent_norm k x.parent_id).1 hm))]

/-- Witness for C4: creating a folder under folder B of the concrete tree. -/
theorem create_folder_adds_one_witness :
    countFolders (createTreeUpdate
      { name := "New", description := none, color := none, icon := none,
        position := 0, metadata := [], parent_id := some (some "B") }
      (TreeNode.folder (optimisticFolder
        { name := "New", description := none, color := none, icon := none,
          position := 0, metadata := [], parent_id := some (some "B") }
        "t0" "tmp-1") []) exTreeAB).tree =
      countFolders exTreeAB.tree + 1 :=
  (create_folder_adds_one exTreeAB
    { name := "New", description := none, color := none, icon := none,
      position := 0, metadata := [], parent_id := some (some "B") }
    "t0" "tmp-1"
    (by simp [exTreeAB, folderIds, mkFolder])
    (by
      intro p hp hne
      have hpB : p = "B" := by simpa using hp.symm
      subst hpB
      simp [exTreeAB, containsFolderId, mkFolder])).1.1

theorem containsFolderId_removeFolder (fid : String) :
    ∀ forest, containsFolderId fid (removeFolder fid forest) = false := by
  intro forest
  induction forest using forest_ind with
  | hnil => simp [removeFolder, containsFolderId]
  | hfolder d cs rest ihc ihr =>
    by_cases hdf : d.id = fid
    · simp [removeFolder, hdf, ihr]
    · simp [removeFolder, hdf, containsFolderId, ihc, ihr]
  | hsource s rest ih =>
    simp [removeFolder, containsFolderId, ih]

theorem folderInfos_removeFolder_subset (fid : String) :
    ∀ forest, ∀ d ∈ folderInfos (removeFolder fid forest),
      d ∈ folderInfos forest := by
  intro forest
  induction forest using forest_ind with
  | hnil =>
    intro d hd
    simp [removeFolder, folderInfos] at hd
  | hfolder d0 cs rest ihc ihr =>
    intro d hd
    by_cases hdf : d0.id = fid
    · simp only [removeFolder, if_pos hdf] at hd
      simp only [folderInfos, List.mem_cons, List.mem_append]
      exact Or.inr (Or.inr (ihr d hd))
    · simp only [removeFolder, if_neg hdf, folderInfos, List.mem_cons,
        List.mem_append] at hd
      simp only [folderInfos, List.mem_cons, List.mem_append]
      rcases hd with hd | hd | hd
      · exact Or.inl hd
      · exact Or.inr (Or.inl (ihc d hd))
      · exact Or.inr (Or.inr (ihr d hd))
  | hsource s rest ih =>
    intro d hd
    simp only [removeFolder, folderInfos] at hd
    simp only [folderInfos]
    exact ih d hd

/-- C5 (amended): the optimistic delete removes every folder node with the
deleted id together with its subtree, decreases `total_folders` by exactly
one (never below zero), and leaves the record of every remaining folder —
its counts included — unchanged; no ancestor count is decremented. -/
theorem delete_folder_removes_node (old : FolderTreeResponse) (fid : String) :
    containsFolderId fid (deleteTreeUpdate old fid).tree = false ∧
    (deleteTreeUpdate old fid).total_folders = max 0 (old.total_folders - 1) ∧
    (∀ d ∈ folderInfos (deleteTreeUpdate old fid).tree,
      d ∈ folderInfos old.tree) :=
  ⟨containsFolderId_removeFolder fid old.tree, rfl,
    folderInfos_removeFolder_subset fid old.tree⟩

/-- Concrete tree for the C5 counterexample: parent P (subfolder_count 1)
holding child F. -/
def exTreeDel : FolderTreeResponse :=
  { tree := [TreeNode.folder (mkFolder "P" 1) [TreeNode.folder (mkFolder "F" 0) []]],
    total_folders := 2, total_sources := none }

/-- Counterexample to C5 as stated: after optimistically deleting F, the
parent P still has `subfolder_count` 1 — the claimed decrement of the
ancestor counts (which would leave 0) does not happen. -/
theorem delete_folder_counterexample :
    subfolderCountOf "P" (deleteTreeUpdate exTreeDel "F").tree = some 1 ∧
    (1 : Int) ≠ 0 := by
  constructor
  · simp [exTreeDel, deleteTreeUpdate, removeFolder, subfolderCountOf, mkFolder]
  · decide

/-- Concrete cache for the C3 witness. -/
def exCache : QueryCache :=
  { tree := some exTreeAB,
    lists := [(some none, some { folders := [], total := 0 })],
    details := [("A", some (mkFolder "A" 1))] }

/-- Witness for C3 at the concrete cache: create rollback restores it. -/
theorem optimistic_rollback_witness :
    createOnError
      (createOnMutate exCache
        { name := "New", description := none, color := none, icon := none,
          position := 0, metadata := [], parent_id := none } "t0" "tmp-1").cache
      (createOnMutate exCache
        { name := "New", description := none, color := none, icon := none,
          position := 0, metadata := [], parent_id := none } "t0" "tmp-1").ctx =
      exCache :=
  (optimistic_rollback exCache (by simp [exCache]) (by simp [exCache])).1
    { name := "New", description := none, color := none, icon := none,
      position := 0, metadata := [], parent_id := none } "t0" "tmp-1"

/-! ## Recursive source count (archon_count_folder_sources) -/

/-- A row of `archon_sources` (the columns the count helper reads). -/
structure SourceRow where
  id : String
  folder_id : Option String
  deriving DecidableEq, Repr

/-- One step of the recursive CTE: the ids of the folders whose `parent_id`
lies in the frontier. -/
def childrenOf (db : FolderTable) (frontier : List String) : List String :=
  (db.filter (fun f =>
    match f.parent_id with
    | some p => frontier.contains p
    | none => false)).map (fun f => f.id)

/-- The union of the first `fuel` iterations of the recursive CTE
`folder_tree`. -/
def cteFolderTree (db : FolderTable) : Nat → List String → List String
  | 0, _ => []
  | fuel + 1, frontier => frontier ++ cteFolderTree db fuel (childrenOf db frontier)

/-- Embedding of the SQL function `archon_count_folder_sources`: the
recursive CTE starts from the target row (empty when the folder does not
exist) and unions the descendant rows; on an acyclic table it reaches its
fixpoint within `db.length` rounds, so running `db.length + 1` rounds models
the CTE evaluated to fixpoint. -/
def archon_count_folder_sources (db : FolderTable) (sources : List SourceRow)
    (target_folder_id : Option String) : Nat :=
  let base := (db.filter (fun f => some f.id = target_folder_id)).map
    (fun f => f.id)
  let folder_tree := cteFolderTree db (db.length + 1) base
  (sources.filter (fun s =>
    match s.folder_id with
    | some g => folder_tree.contains g
    | none => false)).length

/-- The `k`-th frontier of the CTE. -/
def iterChildren (db : FolderTable) : Nat → List String → List String
  | 0, fr => fr
  | k + 1, fr => childrenOf db (iterChildren db k fr)

/-- Specification-side predicate: `g` is the folder `f` itself or one of its
transitive descendant folders, witnessed by an ancestor walk of length at
most `db.length` (on an acyclic table this bound loses nothing, as proved in
the C7 theorem). -/
def isDescendantOrSelf (db : FolderTable) (g f : String) : Bool :=
  (List.range (db.length + 1)).any (fun k => iterParent db k g = some f)

theorem iterChildren_shift (db : FolderTable) :
    ∀ (k : Nat) (fr : List String),
      iterChildren db k (childrenOf db fr) = iterChildren db (k + 1) fr := by
  intro k
  induction k with
  | zero =>
    intro fr
    rfl
  | succ m ih =>
    intro fr
    show childrenOf db (iterChildren db m (childrenOf db fr)) = _
    rw [ih fr]
    rfl

theorem mem_cteFolderTree (db : FolderTable) :
    ∀ (fuel : Nat) (fr : List String) (g : String),
      g ∈ cteFolderTree db fuel fr ↔ ∃ k, k < fuel ∧ g ∈ iterChildren db k fr := by
  intro fuel
  induction fuel with
  | zero =>
    intro fr g
    simp [cteFolderTree]
  | succ n ih =>
    intro fr g
    simp only [cteFolderTree, List.mem_append, ih (childrenOf db fr) g]
    constructor
    · rintro (h | ⟨k, hk, hmem⟩)
      · exact ⟨0, Nat.succ_pos n, h⟩
      · rw [iterChildren_shift] at hmem
        exact ⟨k + 1, by omega, hmem⟩
    · rintro ⟨k, hk, hmem⟩
      cases k with
      | zero => exact Or.inl hmem
      | succ m =>
        rw [← iterChildren_shift] at hmem
        exact Or.inr ⟨m, by omega, hmem⟩

theorem find_id_of_nodup (db : FolderTable)
    (hnodup : (db.map FolderRow.id).Nodup) :
    ∀ f ∈ db, db.find? (fun r => r.id = f.id) = some f := by
  induction db with
  | nil =>
    intro f hf
    cases hf
  | cons f0 rest ih =>
    intro f hf
    simp only [List.map_cons, List.nodup_cons] at hnodup
    rcases hnodup with ⟨hhead, hrest⟩
    rcases List.mem_cons.1 hf with hf0 | hfr
    · subst hf0
      simp [List.find?_cons]
    · have hne : ¬ f0.id = f.id := by
        intro hcon
        exact hhead (hcon ▸ List.mem_map_of_mem FolderRow.id hfr)
      rw [List.find?_cons]
      simp only [hne, decide_eq_true_eq]
      exact ih hrest f hfr

theorem mem_childrenOf (db : FolderTable)
    (hnodup : (db.map FolderRow.id).Nodup) (fr : List String) (g : String) :
    g ∈ childrenOf db fr ↔ ∃ p, stepParent db g = some p ∧ p ∈ fr := by
  unfold childrenOf
  constructor
  · intro h
    rcases List.mem_map.1 h with ⟨f, hf, hfg⟩
    rcases List.mem_filter.1 hf with ⟨hfdb, hcond⟩
    cases hp : f.parent_id with
    | none => rw [hp] at hcond; simp at hcond
    | some p =>
      rw [hp] at hcond
      refine ⟨p, ?_, by simpa using hcond⟩
      unfold stepParent
      rw [← hfg, find_id_of_nodup db hnodup f hfdb]
      simp [hp]
  · rintro ⟨p, hstep, hpfr⟩
    unfold stepParent at hstep
    cases hfind : db.find? (fun r => r.id = g) with
    | none => rw [hfind] at hstep; simp at hstep
    | some f =>
      rw [hfind] at hstep
      have hfg : f.id = g := by simpa using List.find?_some hfind
      have hfdb : f ∈ db := List.mem_of_find?_eq_some hfind
      have hfp : f.parent_id = some p := by simpa using hstep
      refine List.mem_map.2 ⟨f, List.mem_filter.2 ⟨hfdb, ?_⟩, hfg⟩
      rw [hfp]
      simpa using hpfr

theorem mem_iterChildren (db : FolderTable)
    (hnodup : (db.map FolderRow.id).Nodup) :
    ∀ (k : Nat) (fr : List String) (g : String),
      g ∈ iterChildren db k fr ↔
        ∃ r, iterParent db k g = some r ∧ r ∈ fr := by
  intro k
  induction k with
  | zero =>
    intro fr g
    simp [iterChildren, iterParent]
  | succ m ih =>
    intro fr g
    show g ∈ childrenOf db (iterChildren db m fr) ↔ _
    rw [mem_childrenOf db hnodup]
    constructor
    · rintro ⟨p, hstep, hpmem⟩
      rcases (ih fr p).1 hpmem with ⟨r, hr, hrfr⟩
      refine ⟨r, ?_, hrfr⟩
      simp [iterParent, hstep, hr]
    · rintro ⟨r, hr, hrfr⟩
      cases hstep : stepParent db g with
      | none => simp [iterParent, hstep] at hr
      | some p =>
        simp only [iterParent, hstep] at hr
        exact ⟨p, rfl, (ih fr p).2 ⟨r, hr, hrfr⟩⟩

theorem iter_depth_bound (db : FolderTable) (hacyc : Acyclic db) :
    ∀ (k : Nat) (g r : String), iterParent db k g = some r → k ≤ db.length := by
  intro k g r hk
  by_contra hgt
  push_neg at hgt
  have hdef : ∀ i, i ≤ k → ∃ v, iterParent db i g = some v := by
    intro i hi
    cases hv : iterParent db i g with
    | some v => exact ⟨v, rfl⟩
    | none =>
      have hnone : iterParent db k g = none := by
        have hsplit : k = i + (k - i) := by omega
        rw [hsplit, iterParent_add, hv]
      rw [hnone] at hk
      exact Option.noConfusion hk
  have hrow : ∀ i v, i + 1 ≤ k → iterParent db i g = some v →
      v ∈ db.map FolderRow.id := by
    intro i v hi hv
    obtain ⟨w, hw⟩ := hdef (i + 1) hi
    have h1 : iterParent db 1 v = some w := by
      rw [iterParent_add db i 1 g, hv] at hw
      exact hw
    cases hs : stepParent db v with
    | none => simp [iterParent, hs] at h1
    | some p =>
      unfold stepParent at hs
      cases hf : db.find? (fun f => f.id = v) with
      | none => rw [hf] at hs; simp at hs
      | some f =>
        have hfv : f.id = v := by simpa using List.find?_some hf
        exact hfv ▸ List.mem_map_of_mem FolderRow.id
          (List.mem_of_find?_eq_some hf)
  have hcyc : ∀ (a b : Nat), a < b → b ≤ db.length →
      iterParent db a g = iterParent db b g → False := by
    intro a b hab hbn heq
    obtain ⟨v, hv⟩ := hdef a (by omega)
    have hvb : iterParent db b g = some v := by rw [← heq, hv]
    have hstep : iterParent db (b - a) v = some v := by
      have h2 := iterParent_add db a (b - a) g
      rw [show a + (b - a) = b by omega, hv] at h2
      rw [hvb] at h2
      exact h2.symm
    exact hacyc v (b - a) (by omega) hstep
  have hsome : ∀ i : Fin (db.length + 1), (iterParent db i.val g).isSome := by
    intro i
    obtain ⟨v, hv⟩ := hdef i.val (by have := i.isLt; omega)
    simp [hv]
  let φ : Fin (db.length + 1) → {x // x ∈ (db.map FolderRow.id).toFinset} :=
    fun i => ⟨(iterParent db i.val g).get (hsome i), by
      rw [List.mem_toFinset]
      refine hrow i.val _ (by have := i.isLt; omega) ?_
      exact (Option.some_get (hsome i)).symm⟩
  have hcardlt : Fintype.card {x // x ∈ (db.map FolderRow.id).toFinset} <
      Fintype.card (Fin (db.length + 1)) := by
    rw [Fintype.card_coe, Fintype.card_fin]
    have h := List.toFinset_card_le (db.map FolderRow.id)
    rw [List.length_map] at h
    omega
  obtain ⟨i, j, hij, hphi⟩ := Fintype.exists_ne_map_eq_of_card_lt φ hcardlt
  have hopt : iterParent db i.val g = iterParent db j.val g := by
    have h1 : iterParent db i.val g = some ((iterParent db i.val g).get (hsome i)) :=
      (Option.some_get (hsome i)).symm
    have h2 : iterParent db j.val g = some ((iterParent db j.val g).get (hsome j)) :=
      (Option.some_get (hsome j)).symm
    have h3 : (iterParent db i.val g).get (hsome i) =
        (iterParent db j.val g).get (hsome j) := congrArg Subtype.val hphi
    rw [h1, h2, h3]
  have hvalne : i.val ≠ j.val := fun h => hij (Fin.ext h)
  rcases Nat.lt_or_ge i.val j.val with h | h
  · exact hcyc i.val j.val h (by have := j.isLt; omega) hopt
  · have hlt : j.val < i.val := by omega
    exact hcyc j.val i.val hlt (by have := i.isLt; omega) hopt.symm

/-- C7: on a folder table with unique ids whose parent pointers form a
finite forest, `archon_count_folder_sources f` counts exactly the sources
whose `folder_id` is `f` or a transitive descendant folder of `f`; the
second conjunct shows the `db.length` walk bound in the descendant predicate
loses no descendants on such a table. -/
theorem count_folder_sources_correct (db : FolderTable)
    (sources : List SourceRow) (t : String)
    (hnodup : (db.map FolderRow.id).Nodup)
    (ht : t ∈ db.map FolderRow.id)
    (hacyc : Acyclic db) :
    archon_count_folder_sources db sources (some t) =
      (sources.filter (fun s =>
        match s.folder_id with
        | some g => isDescendantOrSelf db g t
        | none => false)).length ∧
    (∀ g k, iterParent db k g = some t → isDescendantOrSelf db g t = true) := by
  have hbase : ∀ y, y ∈ (db.filter (fun f => some f.id = some t)).map
      (fun f => f.id) ↔ y = t := by
    intro y
    constructor
    · intro hy
      rcases List.mem_map.1 hy with ⟨f, hf, hfy⟩
      rcases List.mem_filter.1 hf with ⟨_, hcond⟩
      have : f.id = t := by simpa using hcond
      rw [← hfy, this]
    · intro hy
      subst hy
      rcases List.mem_map.1 ht with ⟨f, hf, hfy⟩
      exact List.mem_map.2 ⟨f, List.mem_filter.2 ⟨hf, by simp [hfy]⟩, hfy⟩
  have hmem : ∀ g, g ∈ cteFolderTree db (db.length + 1)
      ((db.filter (fun f => some f.id = some t)).map (fun f => f.id)) ↔
      ∃ k, k ≤ db.length ∧ iterParent db k g = some t := by
    intro g
    rw [mem_cteFolderTree]
    constructor
    · rintro ⟨k, hk, hmem2⟩
      rcases (mem_iterChildren db hnodup k _ g).1 hmem2 with ⟨r, hr, hrbase⟩
      have : r = t := (hbase r).1 hrbase
      exact ⟨k, by omega, this ▸ hr⟩
    · rintro ⟨k, hk, hiter⟩
      refine ⟨k, by omega, ?_⟩
      exact (mem_iterChildren db hnodup k _ g).2 ⟨t, hiter, (hbase t).2 rfl⟩
  have hdesc : ∀ g, isDescendantOrSelf db g t = true ↔
      ∃ k, k ≤ db.length ∧ iterParent db k g = some t := by
    intro g
    unfold isDescendantOrSelf
    rw [List.any_eq_true]
    constructor
    · rintro ⟨k, hk, hcond⟩
      exact ⟨k, by
        have := List.mem_range.1 hk
        omega, by simpa using hcond⟩
    · rintro ⟨k, hk, hiter⟩
      exact ⟨k, List.mem_range.2 (by omega), by simpa using hiter⟩
  constructor
  · unfold archon_count_folder_sources
    refine congrArg List.length (List.filter_congr ?_)
    intro s _
    cases hsf : s.folder_id with
    | none => rfl
    | some g =>
      have h1 : (cteFolderTree db (db.length + 1)
          ((db.filter (fun f => some f.id = some t)).map (fun f => f.id))).contains g =
          isDescendantOrSelf db g t := by
        cases hc : isDescendantOrSelf db g t with
        | true =>
          have hmem2 := (hmem g).2 ((hdesc g).1 hc)
          simpa using hmem2
        | false =>
          cases hcon : (cteFolderTree db (db.length + 1)
              ((db.filter (fun f => some f.id = some t)).map
                (fun f => f.id))).contains g with
          | false => rfl
          | true =>
            have hmem2 : g ∈ cteFolderTree db (db.length + 1)
                ((db.filter (fun f => some f.id = some t)).map (fun f => f.id)) := by
              simpa using hcon
            have hdec := (hdesc g).2 ((hmem g).1 hmem2)
            rw [hdec] at hc
            exact Bool.noConfusion hc
      simp only [h1]
  · intro g k hiter
    have hk := iter_depth_bound db hacyc k g t hiter
    exact (hdesc g).2 ⟨k, hk, hiter⟩

/-- Witness for C7 at a concrete two-folder chain with one source in the
subfolder: the recursive count of folder a is 1. -/
theorem count_folder_sources_correct_witness :
    archon_count_folder_sources [⟨"a", none⟩, ⟨"b", some "a"⟩]
      [⟨"s1", some "b"⟩, ⟨"s2", none⟩] (some "a") = 1 := by
  rw [(count_folder_sources_correct [⟨"a", none⟩, ⟨"b", some "a"⟩]
    [⟨"s1", some "b"⟩, ⟨"s2", none⟩] "a" (by decide) (by decide)
    (acyclic_of_terminating _ (by decide))).1]
  decide

/-- Witness for C5 (amended) at the concrete tree: deleting F leaves no F
node. -/
theorem delete_folder_removes_node_witness :
    containsFolderId "F" (deleteTreeUpdate exTreeDel "F").tree = false :=
  (delete_folder_removes_node exTreeDel "F").1

/-! ## A parent chain deeper than the walk cap (C1 counterexample) -/

/-- Folder ids of the deep chain. -/
def chainName (i : Nat) : String := "c" ++ toString i

/-- A reachable 102-folder table (every insert satisfies the self-reference
check constraint): folder `c i` has parent `c (i+1)`, the last one is a
root.  The parent chain above `c 0` has 101 entries, one more than the
walk cap. -/
def deepChain : FolderTable :=
  (List.range 102).map (fun i =>
    { id := chainName i,
      parent_id := if i = 101 then none else some (chainName (i + 1)) })

theorem deepChain_nodup : (deepChain.map FolderRow.id).Nodup := by decide

theorem deepChain_map_id :
    deepChain.map FolderRow.id = (List.range 102).map chainName := by
  simp [deepChain, List.map_map, Function.comp]

theorem chainName_inj (i j : Nat) (hi : i < 102) (hj : j < 102)
    (h : chainName i = chainName j) : i = j := by
  have hnd : ((List.range 102).map chainName).Nodup := by
    rw [← deepChain_map_id]
    exact deepChain_nodup
  exact List.inj_on_of_nodup_map hnd (List.mem_range.2 hi)
    (List.mem_range.2 hj) h

theorem deepChain_step (i : Nat) (hi : i < 102) :
    stepParent deepChain (chainName i) =
      if i = 101 then none else some (chainName (i + 1)) := by
  have hmem : (⟨chainName i, if i = 101 then none
      else some (chainName (i + 1))⟩ : FolderRow) ∈ deepChain :=
    List.mem_map.2 ⟨i, List.mem_range.2 hi, rfl⟩
  have hfind := find_id_of_nodup deepChain deepChain_nodup _ hmem
  have hfind2 : deepChain.find? (fun r => r.id = chainName i) =
      some ⟨chainName i, if i = 101 then none
        else some (chainName (i + 1))⟩ := by
    simpa using hfind
  unfold stepParent
  rw [hfind2]
  rfl

theorem deepChain_iter_some :
    ∀ (k i : Nat), i + k ≤ 101 →
      iterParent deepChain k (chainName i) = some (chainName (i + k)) := by
  intro k
  induction k with
  | zero =>
    intro i _
    rfl
  | succ n ih =>
    intro i h
    have hne : ¬ i = 101 := by omega
    have hstep : stepParent deepChain (chainName i) = some (chainName (i + 1)) := by
      rw [deepChain_step i (by omega), if_neg hne]
    simp only [iterParent, hstep]
    rw [ih (i + 1) (by omega)]
    have harith : i + 1 + n = i + (n + 1) := by omega
    rw [harith]

theorem deepChain_iter_none :
    ∀ (j i : Nat), 1 ≤ j → i + j = 102 →
      iterParent deepChain j (chainName i) = none := by
  intro j
  induction j with
  | zero =>
    intro i h
    omega
  | succ n ih =>
    intro i _ hsum
    by_cases hi101 : i = 101
    · subst hi101
      have hn : n = 0 := by omega
      subst hn
      have hstep : stepParent deepChain (chainName 101) = none := by
        rw [deepChain_step 101 (by omega), if_pos rfl]
      simp [iterParent, hstep]
    · have hstep : stepParent deepChain (chainName i) =
          some (chainName (i + 1)) := by
        rw [deepChain_step i (by omega), if_neg hi101]
      simp only [iterParent, hstep]
      exact ih (i + 1) (by omega) (by omega)

theorem deepChain_acyclic : Acyclic deepChain := by
  intro x k hk hcyc
  by_cases hx : ∃ i, i < 102 ∧ x = chainName i
  · rcases hx with ⟨i, hi, rfl⟩
    have hterm := deepChain_iter_none (102 - i) i (by omega) (by omega)
    exact no_cycle_of_terminates deepChain (chainName i) (102 - i) hterm k hk hcyc
  · have hfind : deepChain.find? (fun f => f.id = x) = none := by
      rw [List.find?_eq_none]
      intro f hf
      rcases List.mem_map.1 hf with ⟨i, hi, rfl⟩
      simp only [decide_eq_true_eq]
      intro hcon
      exact hx ⟨i, List.mem_range.1 hi, hcon.symm⟩
    have hstep : stepParent deepChain x = none := by
      unfold stepParent
      rw [hfind]
      rfl
    cases k with
    | zero => omega
    | succ m => simp [iterParent, hstep] at hcyc

theorem deepChain_guard :
    archon_is_folder_descendant deepChain (some (chainName 0))
      (some (chainName 101)) = false := by
  rw [archon_is_folder_descendant_some_some,
    if_neg (show ¬ chainName 0 = chainName 101 by decide)]
  have hstep : stepParent deepChain (chainName 0) = some (chainName 1) := by
    rw [deepChain_step 0 (by omega), if_neg (by omega)]
  rw [hstep]
  cases hw : descendWalk deepChain (chainName 101) 100 (some (chainName 1)) with
  | false => rfl
  | true =>
    exfalso
    have hmem := (descendWalk_iff_mem deepChain (chainName 101) 100
      (some (chainName 1))).1 hw
    rw [mem_parentChain_iff] at hmem
    rcases hmem with ⟨k, hk, hiter⟩
    rw [deepChain_iter_some k 1 (by omega)] at hiter
    have heq : chainName (1 + k) = chainName 101 := by simpa using hiter
    have := chainName_inj (1 + k) 101 (by omega) (by omega) heq
    omega

theorem deepChain_find_isSome :
    (deepChain.find? (fun f => f.id = chainName 101)).isSome := by
  have hmem : (⟨chainName 101, if 101 = 101 then none
      else some (chainName (101 + 1))⟩ : FolderRow) ∈ deepChain :=
    List.mem_map.2 ⟨101, List.mem_range.2 (by omega), rfl⟩
  have hfind := find_id_of_nodup deepChain deepChain_nodup _ hmem
  have hfind2 : deepChain.find? (fun r => r.id = chainName 101) =
      some ⟨chainName 101, if 101 = 101 then none
        else some (chainName (101 + 1))⟩ := by
    simpa using hfind
  rw [hfind2]
  rfl

theorem deepChain_cycle :
    iterParent (setParent deepChain (chainName 101) (some (chainName 0))) 102
      (chainName 101) = some (chainName 101) := by
  have hstep' := stepParent_setParent deepChain (chainName 101)
    (some (chainName 0)) deepChain_find_isSome
  have hclimb : ∀ j, j ≤ 101 →
      iterParent (setParent deepChain (chainName 101) (some (chainName 0))) j
        (chainName (101 - j)) = some (chainName 101) := by
    intro j
    induction j with
    | zero =>
      intro _
      rfl
    | succ n ih =>
      intro hn1
      have hne : ¬ chainName (101 - (n + 1)) = chainName 101 := by
        intro h
        have := chainName_inj (101 - (n + 1)) 101 (by omega) (by omega) h
        omega
      have hstep : stepParent
          (setParent deepChain (chainName 101) (some (chainName 0)))
          (chainName (101 - (n + 1))) = some (chainName (101 - n)) := by
        rw [hstep' (chainName (101 - (n + 1))), if_neg hne,
          deepChain_step (101 - (n + 1)) (by omega), if_neg (by omega)]
        have harith : 101 - (n + 1) + 1 = 101 - n := by omega
        rw [harith]
      simp only [iterParent, hstep]
      exact ih (by omega)
  have hstep101 : stepParent
      (setParent deepChain (chainName 101) (some (chainName 0)))
      (chainName 101) = some (chainName 0) := by
    rw [hstep' (chainName 101), if_pos rfl]
  rw [show (102 : Nat) = 1 + 101 from rfl, iterParent_add]
  have h1 : iterParent
      (setParent deepChain (chainName 101) (some (chainName 0))) 1
      (chainName 101) = some (chainName 0) := by
    simp [iterParent, hstep101]
  rw [h1]
  have := hclimb 101 (le_refl _)
  simpa using this

/-- Counterexample to C1 as stated: `deepChain` is a reachable state — every
row satisfies the self-reference check constraint and the table is acyclic —
whose parent chain above `c 0` is one entry deeper than the 100-step cap.
The ancestor walk therefore returns FALSE for moving `c 101` (a true
ancestor of `c 0`) under `c 0`, and after that guarded reparent the folder
`c 101` reaches itself in 102 parent steps: it lies on its own ancestor
chain, so the constraint plus the capped walk do not enforce the invariant
on every reachable state. -/
theorem folder_no_self_ancestor_counterexample :
    (∀ f ∈ deepChain, f.parent_id ≠ some f.id) ∧
    Acyclic deepChain ∧
    archon_is_folder_descendant deepChain (some (chainName 0))
      (some (chainName 101)) = false ∧
    iterParent (setParent deepChain (chainName 101) (some (chainName 0))) 102
      (chainName 101) = some (chainName 101) :=
  ⟨by decide, deepChain_acyclic, deepChain_guard, deepChain_cycle⟩
